import Mathlib

/-!
Verification of the Nexus document-intelligence orchestration engine.

This file is a shallow embedding, in Lean 4, of the orchestration core of
the repository: the data model (`src/types.ts`), the cross-provider
consensus merge, the sequential failover policy, the tracked-subject (POI)
aggregation, the primary scheduler and the asynchronous verification agent
(`src/App.tsx`), and the provider response-parsing pipelines
(`src/services/lmStudioService.ts`, `src/services/openRouterService.ts`).

Conventions of the embedding:
- JavaScript string truthiness on a string `s` is modelled as `s ≠ ""`.
- A JavaScript `undefined` field is modelled with `Option`, and the JS
  pattern `x || d` on strings (which replaces both `undefined` and `""`)
  is modelled by `jsOr`.
- `JSON.parse` is an external library call; the parsing pipelines are
  parameterised by an abstract `parse : String → Option RawParsed`
  standing for it, so that the recovery control flow — which is what the
  source implements — is embedded exactly.
- The single-threaded, event-driven execution of the app is modelled as a
  small-step transition system (`SysStep`); each synchronous run of code
  between two `await` suspension points is one atomic step.
-/

namespace Nexus

/-- Document lifecycle status, from `ProcessedDocument.status` in `src/types.ts`:
`'pending' | 'processing' | 'verifying' | 'completed' | 'error'`. -/
inductive Status where
  | pending
  | processing
  | verifying
  | completed
  | error
deriving DecidableEq, Repr

/-- An extracted entity, from `Entity` in `src/types.ts`. The optional
`isFamous` flag is modelled as `Bool` (JS `undefined` is falsy). -/
structure Entity where
  name : String
  role : String
  context : String
  isFamous : Bool
deriving DecidableEq, Repr

/-- An analysis result, from `DocumentAnalysis` in `src/types.ts`. Fields not
touched by any claim (`visualObjects`, `evidenceType`, `confidenceScore`,
`timelineEvents`) are omitted; optional string fields absent in a given code
path are modelled as `""`, optional lists as `[]`. -/
structure DocumentAnalysis where
  summary : String
  entities : List Entity
  keyInsights : List String
  sentiment : String
  documentDate : String
  flaggedPOIs : List String
  locations : List String
  organizations : List String
  processedBy : String
deriving DecidableEq, Repr

/-- One mention of a tracked subject, from `POI.mentions` in `src/types.ts`. -/
structure Mention where
  docId : String
  docName : String
  context : String
deriving DecidableEq, Repr

/-- A tracked subject (person of interest), from `POI` in `src/types.ts`.
The source fills `id` with a random string; it is opaque to every claim. -/
structure POI where
  id : String
  name : String
  mentions : List Mention
  isPolitical : Bool
deriving DecidableEq, Repr

/-- A document record, from `ProcessedDocument` in `src/types.ts`. The
extracted `content`, `images` and `contentBlob` fields are not modelled as
data; blob availability is tracked separately in the system state. -/
structure ProcessedDocument where
  id : String
  name : String
  status : Status
  analysis : Option DocumentAnalysis
  lineage : List String
deriving DecidableEq, Repr

/-- Provider configuration, from `ModelConfig` in `src/types.ts`. The
per-provider `enabled` object is modelled as the list of enabled provider
names; endpoint/credential/model fields are opaque to every claim. -/
structure ModelConfig where
  priority : List String
  enabled : List String
  dualCheckMode : Bool
  preferredVerifier : String
  parallelAnalysis : Bool
deriving DecidableEq, Repr

/-- Enabled providers in priority order:
`config.priority.filter(p => config.enabled[p])` (`src/App.tsx`). -/
def activeChain (cfg : ModelConfig) : List String :=
  cfg.priority.filter (fun p => cfg.enabled.contains p)

/-- JS `x || d` for an optional string: `undefined` and `""` both fall back. -/
def jsOr (x : Option String) (d : String) : String :=
  match x with
  | none => d
  | some s => if s = "" then d else s

/-- JS `s.toLowerCase()`. Core's `String.toLower` is used on character lists so
that concrete instances reduce inside the kernel. -/
def lowerStr (s : String) : String := String.mk (s.data.map Char.toLower)

/-- JS `s.toUpperCase()` (see `lowerStr`). -/
def upperStr (s : String) : String := String.mk (s.data.map Char.toUpper)

/-- Substring occurrence test on character lists. -/
def containsSub : List Char → List Char → Bool
  | _, [] => true
  | [], _ :: _ => false
  | h :: t, p :: ps => (List.isPrefixOf (p :: ps) (h :: t)) || containsSub t (p :: ps)

/-- Case-insensitive substring test, modelling a JS regex literal-word
alternative such as `/senator|president/i.test(s)` one word at a time. -/
def matchesCI (pat : String) (s : String) : Bool :=
  containsSub (lowerStr s).data pat.data

/-- The high-value-role regex `/senator|president|governor|ambassador|prince/i`
used on both the primary and the verification path (`src/App.tsx`). -/
def highValueRole (role : String) : Bool :=
  matchesCI "senator" role || matchesCI "president" role ||
    matchesCI "governor" role || matchesCI "ambassador" role ||
    matchesCI "prince" role

/-- The relevance regex `/agent|witness|pilot|recruiter|victim/i` used by POI
promotion (`src/App.tsx`). -/
def relevantRole (role : String) : Bool :=
  matchesCI "agent" role || matchesCI "witness" role ||
    matchesCI "pilot" role || matchesCI "recruiter" role ||
    matchesCI "victim" role

/-- The political-role regex `/president|governor|senator|clerk/i` used when a
new POI record is created (`src/App.tsx`). -/
def politicalRole (role : String) : Bool :=
  matchesCI "president" role || matchesCI "governor" role ||
    matchesCI "senator" role || matchesCI "clerk" role

/-- JS `[...new Set(list)]`: de-duplication keeping the first occurrence of
each element, in order. -/
def dedupFirst (l : List String) : List String :=
  l.foldl (fun acc x => if x ∈ acc then acc else acc ++ [x]) []

/-! Consensus merge (the "Swarm Consensus Logic" block of `processDocumentAgent`,
`src/App.tsx` lines 210–241). A successful parallel call yields a
`(provider, data)` pair; the merge groups every reported entity by
lowercased name in a JS `Map` (insertion-ordered), collecting the set of
providers that reported each name. -/

/-- One fulfilled parallel result: `{ provider: p, data: res }`. -/
structure ProviderSuccess where
  provider : String
  data : DocumentAnalysis
deriving DecidableEq, Repr

/-- The flattened entity stream tagged by source provider:
`successes.flatMap(s => s.data.entities.map(e => ({...e, source: s.provider})))`. -/
def allEntities (ss : List ProviderSuccess) : List (String × Entity) :=
  ss.flatMap (fun s => s.data.entities.map (fun e => (s.provider, e)))

/-- A value of the merge's `entityMap`: the spread fields of the first
occurrence of a name, plus the insertion-ordered set of reporting providers. -/
structure MergedEntity where
  first : Entity
  sources : List String
deriving DecidableEq, Repr

/-- JS `entityMap.get(key).sources.add(e.source)` (a `Set` ignores repeats). -/
def addSource (me : MergedEntity) (p : String) : MergedEntity :=
  { me with sources := if p ∈ me.sources then me.sources else me.sources ++ [p] }

/-- One iteration of the `allEntities.forEach` loop that builds `entityMap`:
insert the first occurrence of a lowercased name, or add the provider to the
existing entry's source set. -/
def entityMapStep (m : List (String × MergedEntity)) (pe : String × Entity) :
    List (String × MergedEntity) :=
  if m.any (fun kv => kv.1 = lowerStr pe.2.name) then
    m.map (fun kv =>
      if kv.1 = lowerStr pe.2.name then (kv.1, addSource kv.2 pe.1) else kv)
  else
    m ++ [(lowerStr pe.2.name, ⟨pe.2, [pe.1]⟩)]

/-- The fully built `entityMap`, as an insertion-ordered association list. -/
def entityMapOf (ss : List ProviderSuccess) : List (String × MergedEntity) :=
  (allEntities ss).foldl entityMapStep []

/-- The `consolidatedEntities` projection: tag the context and force the
notable flag when more than one provider reported the name. -/
def consolidate (me : MergedEntity) : Entity :=
  { me.first with
    context := if 1 < me.sources.length
      then "[SWARM CONFIRMED]: " ++ me.first.context
      else me.first.context,
    isFamous := me.first.isFamous || decide (1 < me.sources.length) }

/-- The merged entity list (`consolidatedEntities` in the source). -/
def mergeEntities (ss : List ProviderSuccess) : List Entity :=
  (entityMapOf ss).map (fun kv => consolidate kv.2)

/-- Merged summary: every contributing summary, attributed by provider:
`successes.map(s => `[${s.provider.toUpperCase()}]: ${s.data.summary}`).join('\n\n')`. -/
def mergedSummary (ss : List ProviderSuccess) : String :=
  String.intercalate "\n\n"
    (ss.map (fun s => "[" ++ upperStr s.provider ++ "]: " ++ s.data.summary))

/-- Merged key insights: `[...new Set(successes.flatMap(s => s.data.keyInsights))]`. -/
def mergedKeyInsights (ss : List ProviderSuccess) : List String :=
  dedupFirst (ss.flatMap (fun s => s.data.keyInsights))

/-- Merged flagged subjects: `[...new Set(successes.flatMap(s => s.data.flaggedPOIs))]`. -/
def mergedFlaggedPOIs (ss : List ProviderSuccess) : List String :=
  dedupFirst (ss.flatMap (fun s => s.data.flaggedPOIs))

/-- Merged locations: `[...new Set(successes.flatMap(s => s.data.locations || []))]`. -/
def mergedLocations (ss : List ProviderSuccess) : List String :=
  dedupFirst (ss.flatMap (fun s => s.data.locations))

/-- Merged organizations: `[...new Set(successes.flatMap(s => s.data.organizations || []))]`. -/
def mergedOrganizations (ss : List ProviderSuccess) : List String :=
  dedupFirst (ss.flatMap (fun s => s.data.organizations))

/-- The provider tag the merge itself writes:
`processedBy: `Swarm (${successes.map(s => s.provider).join('+')})``. -/
def swarmTag (ss : List ProviderSuccess) : String :=
  "Swarm (" ++ String.intercalate "+" (ss.map (fun s => s.provider)) ++ ")"

/-- The consensus merge of the non-empty list of fulfilled results
(`analysis = { ...primary.data, ... }` in the source); `none` on the empty
list, which the caller has already excluded by throwing. -/
def mergeConsensus (ss : List ProviderSuccess) : Option DocumentAnalysis :=
  match ss with
  | [] => none
  | primary :: _ =>
    some { primary.data with
      summary := mergedSummary ss,
      entities := mergeEntities ss,
      keyInsights := mergedKeyInsights ss,
      flaggedPOIs := mergedFlaggedPOIs ss,
      locations := mergedLocations ss,
      organizations := mergedOrganizations ss,
      processedBy := swarmTag ss }

/-- Association-list lookup mirroring `entityMap.get(key)` (`find?` returns the
first— and, with unique keys, only — entry for the key). -/
def lookupKey (m : List (String × MergedEntity)) (k : String) :
    Option (String × MergedEntity) :=
  m.find? (fun kv => kv.1 = k)

/-- A provider occurred for a key in the (partially built) map. -/
def inSources (m : List (String × MergedEntity)) (k p : String) : Prop :=
  ∃ kv, lookupKey m k = some kv ∧ p ∈ kv.2.sources

/-- Per-entry well-formedness of the entity map: a source set never repeats a
provider, and the entry's key is the lowercased name of its first occurrence. -/
def GoodEntry (kv : String × MergedEntity) : Prop :=
  kv.2.sources.Nodup ∧ lowerStr kv.2.first.name = kv.1

/-- Provider `p` reported an entity whose lowercased name is `n` in one of the
fulfilled results. -/
def reports (ss : List ProviderSuccess) (p n : String) : Prop :=
  ∃ pe ∈ allEntities ss, pe.1 = p ∧ lowerStr pe.2.name = n

/-- The first occurrence, in stream order, of an entity with lowercased name
`n` among the fulfilled results. -/
def firstReported (ss : List ProviderSuccess) (n : String) : Option Entity :=
  ((allEntities ss).find? (fun pe => lowerStr pe.2.name = n)).map (fun pe => pe.2)

/-! Execution policies (`processDocumentAgent`, `src/App.tsx` lines 154–336). -/

/-- The observable behaviour of one `runProvider` call: it either throws or
resolves with an analysis (none of the service functions resolves `null`). -/
inductive RunOutcome where
  | throws (msg : String)
  | returns (a : DocumentAnalysis)
deriving DecidableEq, Repr

/-- The sequential failover loop (`for (const provider of activeChain)`),
with the accumulators of the source: the `analysis` variable (which keeps its
previous value when a call throws), the `lineage` list (pushed before every
call), and the `finalProvider` string (set only on a summary-bearing result,
which also breaks the loop). -/
def seqFailover (run : String → RunOutcome) :
    List String → Option DocumentAnalysis → List String → String →
    Option DocumentAnalysis × List String × String
  | [], analysis, lineage, fp => (analysis, lineage, fp)
  | p :: rest, analysis, lineage, fp =>
    match run p with
    | .throws _ => seqFailover run rest analysis (lineage ++ [p]) fp
    | .returns a =>
      if a.summary = "" then seqFailover run rest (some a) (lineage ++ [p]) fp
      else (some a, lineage ++ [p], p)

/-- The dual-check trigger: `analysis.entities.find(e => e.isFamous ||
/senator|president|governor|ambassador|prince/i.test(e.role))`. -/
def highValueTarget (a : DocumentAnalysis) : Option Entity :=
  a.entities.find? (fun e => e.isFamous || highValueRole e.role)

/-- The outcome a primary worker stores for its document. -/
inductive WorkerResult where
  | errored (msg : String)
  | stored (analysis : DocumentAnalysis) (lineage : List String) (status : Status)
deriving DecidableEq, Repr

/-- The shared tail of `processDocumentAgent` after either policy branch:
throw if no analysis was produced, overwrite `processedBy` with
`finalProvider`, and pick `'verifying'` instead of `'completed'` when
dual-check mode sees a high-value entity. -/
def finalizeWorker (analysis? : Option DocumentAnalysis) (lineage : List String)
    (finalProvider : String) (dualCheck : Bool) : WorkerResult :=
  match analysis? with
  | none => .errored "All active intelligence providers failed to return analysis."
  | some a =>
    let a' := { a with processedBy := finalProvider }
    let nextStatus := if dualCheck && (highValueTarget a').isSome
      then Status.verifying else Status.completed
    .stored a' lineage nextStatus

/-- The sequential / failover policy end to end: fail fast when no provider is
enabled, else run the failover loop over the active chain. -/
def sequentialOutcome (run : String → RunOutcome) (cfg : ModelConfig) : WorkerResult :=
  if activeChain cfg = [] then .errored "No intelligence nodes enabled."
  else
    let r := seqFailover run (activeChain cfg) none [] ""
    finalizeWorker r.1 r.2.1 r.2.2 cfg.dualCheckMode

/-- The parallel-consensus policy applied to the fulfilled results (in
settlement order) and the rejection messages: with zero successes the worker
throws the aggregated message, else it merges, sets `lineage` to the
contributing providers, and finalises with `finalProvider = 'Parallel Swarm'`. -/
def parallelOutcome (ss : List ProviderSuccess) (errs : List String)
    (dualCheck : Bool) : WorkerResult :=
  match mergeConsensus ss with
  | none => .errored ("All parallel agents failed: " ++ String.intercalate "; " errs)
  | some a =>
    finalizeWorker (some a) (ss.map (fun s => s.provider)) "Parallel Swarm" dualCheck

/-! Verification agent (`processVerificationAgent`, `src/App.tsx` lines
339–388) and its verifier choice. -/

/-- Verifier selection: the preferred verifier when set, not `'auto'` and
enabled, else the head of the active chain, else `'gemini'`. -/
def chooseVerifier (cfg : ModelConfig) : String :=
  if cfg.preferredVerifier ≠ "" && cfg.preferredVerifier ≠ "auto" &&
      cfg.enabled.contains cfg.preferredVerifier then
    cfg.preferredVerifier
  else
    match activeChain cfg with
    | [] => "gemini"
    | v :: _ => v

/-- One run of the verification agent over a document lookup result.
`blobPresent` is the `fileStore[docId]` lookup, `pdfThrows` models an
exception from the `processPdf` suspension, and `outcome` the verifier
provider call. The result is the replacement document record, or `none` for
the guard's early return (`if (!doc || !blob || !doc.analysis) return`),
which changes nothing. The `catch` branch is `updateDocStatus(docId,
'completed')`, which only touches the status. -/
def processVerificationAgentBody (doc : ProcessedDocument) (blobPresent : Bool)
    (pdfThrows : Bool) (cfg : ModelConfig) (outcome : RunOutcome) :
    Option ProcessedDocument :=
    if blobPresent = false then none
    else
      match doc.analysis with
      | none => none
      | some analysis =>
        if pdfThrows then some { doc with status := .completed }
        else
          match highValueTarget analysis, cfg.dualCheckMode with
          | some target, true =>
            if chooseVerifier cfg = "" then some { doc with status := .completed }
            else
              match outcome with
              | .throws _ => some { doc with status := .completed }
              | .returns v =>
                if 0 < v.entities.length then
                  some { doc with
                    analysis := some { analysis with summary := analysis.summary ++
                      "\n\n[VERIFICATION]: " ++ chooseVerifier cfg ++
                      " confirms presence of " ++ target.name ++
                      " (Web Grounding: " ++
                      (if chooseVerifier cfg = "gemini" then "Enabled" else "N/A") ++
                      ")." },
                    lineage := doc.lineage ++ ["Verified by " ++ chooseVerifier cfg],
                    status := .completed }
                else
                  some { doc with
                    analysis := some { analysis with summary := analysis.summary ++
                      "\n\n[VERIFICATION]: " ++ chooseVerifier cfg ++
                      " could NOT verify " ++ target.name ++ "." },
                    status := .completed }
          | _, _ => some { doc with status := .completed }

/-- The verification agent over the document lookup result: the guard's
`!doc` disjunct, then the body. -/
def processVerificationAgent (doc? : Option ProcessedDocument) (blobPresent : Bool)
    (pdfThrows : Bool) (cfg : ModelConfig) (outcome : RunOutcome) :
    Option ProcessedDocument :=
  match doc? with
  | none => none
  | some doc => processVerificationAgentBody doc blobPresent pdfThrows cfg outcome

/-! Provider response parsing (`src/services/lmStudioService.ts` lines
216–278 and `src/services/openRouterService.ts` lines 7–9, 123–145).
`JSON.parse` composed with the field reads is abstracted as a
`parse : String → Option RawParsed` parameter; everything around it — the
cleaning, the brace-pair fallback and the degraded result — is embedded. -/

/-- The fields the services read off a successfully parsed JSON object;
`none` models a missing (`undefined`) field. -/
structure RawParsed where
  summary : Option String
  entities : Option (List Entity)
  keyInsights : Option (List String)
  sentiment : Option String
  documentDate : Option String
  flaggedPOIs : Option (List String)
  locations : Option (List String)
  organizations : Option (List String)
deriving DecidableEq, Repr

/-- JS `String.prototype.trim` whitespace (the common cases). -/
def isJsWS (c : Char) : Bool := c = ' ' || c = '\n' || c = '\t' || c = '\r'

/-- Trim on character lists. -/
def trimChars (l : List Char) : List Char :=
  ((l.dropWhile isJsWS).reverse.dropWhile isJsWS).reverse

/-- Trim on strings. -/
def trimStr (s : String) : String := String.mk (trimChars s.data)

/-- Split a character list at the first occurrence of a pattern, returning the
text before it and the text after it (JS `indexOf` plus slicing). -/
def splitAtSub (pat : List Char) : List Char → Option (List Char × List Char)
  | [] => if pat.isEmpty then some ([], []) else none
  | h :: t =>
    if List.isPrefixOf pat (h :: t) then some ([], (h :: t).drop pat.length)
    else (splitAtSub pat t).map (fun pr => (h :: pr.1, pr.2))

/-- One global-regex removal pass, `s.replace(pat, '')` for a literal pattern,
with a fuel argument bounded by the list length (each removal consumes at
least one character, so `l.length` steps always suffice). -/
def removeAllAux (pat : List Char) : Nat → List Char → List Char
  | 0, l => l
  | fuel + 1, l =>
    match splitAtSub pat l with
    | none => l
    | some (before, rest) => before ++ removeAllAux pat fuel rest

/-- Remove every occurrence of a literal pattern. -/
def removeAllSub (pat l : List Char) : List Char := removeAllAux pat l.length l

/-- The think-tag stripper `replace(/<think>[\s\S]*?<\/think>/g, "")`: drop
every lazily-matched `<think>…</think>` block; an opening tag without a
closing tag stays (the regex does not match it). Fuel as in `removeAllAux`. -/
def stripThinkAux : Nat → List Char → List Char
  | 0, l => l
  | fuel + 1, l =>
    match splitAtSub "<think>".data l with
    | none => l
    | some (before, rest) =>
      match splitAtSub "</think>".data rest with
      | none => before ++ "<think>".data ++ rest
      | some (_, after) => before ++ stripThinkAux fuel after

/-- Strip all `<think>` blocks from a character list. -/
def stripThinkChars (l : List Char) : List Char := stripThinkAux l.length l

/-- The fenced-code-block extractor `match(/```(?:json)?\s*([\s\S]*?)\s*```/)`:
if a complete fenced block exists, keep only its contents, minus an optional
leading `json` tag, trimmed; otherwise keep the input unchanged. -/
def extractFencedChars (l : List Char) : List Char :=
  match splitAtSub "```".data l with
  | none => l
  | some (_, rest) =>
    match splitAtSub "```".data rest with
    | none => l
    | some (inner, _) =>
      trimChars (if List.isPrefixOf "json".data inner then inner.drop 4 else inner)

/-- The cleaning prefix of the LM Studio parser: strip think tags, trim, then
reduce to the first fenced code block if one is present. -/
def cleanLMContent (s : String) : String :=
  String.mk (extractFencedChars (trimChars (stripThinkChars s.data)))

/-- JS `s.substring(0, n)`. -/
def jsSubstring (s : String) (n : Nat) : String := String.mk (s.data.take n)

/-- The outermost-brace-pair fallback of the LM Studio parser:
`indexOf('{')`, `lastIndexOf('}')`, and the substring between them when the
last brace is strictly after the first. -/
def braceSlice (s : String) : Option String :=
  let cs := s.data
  match cs.findIdx? (fun c => c = Char.ofNat 123),
      cs.reverse.findIdx? (fun c => c = Char.ofNat 125) with
  | some i, some j =>
    let l := cs.length - 1 - j
    if i < l then some (String.mk ((cs.drop i).take (l - i + 1))) else none
  | _, _ => none

/-- The LM Studio response parser (`analyzeWithLMStudio`): clean, try a direct
parse, fall back to the outermost brace pair, and if both fail return the
degraded analysis built from the raw text — this function never throws. -/
def lmParsedObject (parse : String → Option RawParsed)
    (responseContent : String) : Option RawParsed :=
  match parse (cleanLMContent responseContent) with
  | some p => some p
  | none =>
    match braceSlice (cleanLMContent responseContent) with
    | some sub => parse sub
    | none => none

/-- Assembly of the LM Studio result from the `parsed` variable: the degraded
raw-text analysis when every parse attempt failed, else the parsed fields
with their `||` defaults. -/
def lmParsePipeline (parse : String → Option RawParsed)
    (responseContent : String) : DocumentAnalysis :=
  match lmParsedObject parse responseContent with
  | none =>
    { summary := if jsSubstring responseContent 500 = ""
        then "Could not extract summary." else jsSubstring responseContent 500,
      entities := [],
      keyInsights := [jsSubstring responseContent 200],
      sentiment := "Local Analysis (Raw)",
      documentDate := "Unknown",
      flaggedPOIs := [],
      locations := [],
      organizations := [],
      processedBy := "" }
  | some p =>
    { summary := jsOr p.summary "Summary extraction failed.",
      entities := p.entities.getD [],
      keyInsights := p.keyInsights.getD [],
      sentiment := jsOr p.sentiment "Local Analysis",
      documentDate := jsOr p.documentDate "Unknown",
      flaggedPOIs := p.flaggedPOIs.getD [],
      locations := p.locations.getD [],
      organizations := p.organizations.getD [],
      processedBy := "" }

/-- The OpenRouter fence stripper `cleanJsonResponse`:
`text.replace(/```json\n?|```/g, '').trim()`. -/
def cleanJsonResponse (s : String) : String :=
  trimStr (String.mk (removeAllSub "```".data
    (removeAllSub "```json".data (removeAllSub ("```json\n".data) s.data))))

/-- The OpenRouter response parser (`analyzeWithOpenRouter`): strip fences,
attempt one direct parse, and throw on failure — there is no brace-pair
fallback and no degraded result. -/
def openRouterParsePipeline (parse : String → Option RawParsed)
    (rawContent : String) : Except String DocumentAnalysis :=
  match parse (cleanJsonResponse rawContent) with
  | none => Except.error "Model failed to return valid JSON. Check the logs for raw output."
  | some p => Except.ok
    { summary := jsOr p.summary "Summary extraction failed.",
      entities := p.entities.getD [],
      keyInsights := p.keyInsights.getD [],
      sentiment := "Investigative",
      documentDate := jsOr p.documentDate "Unknown",
      flaggedPOIs := p.flaggedPOIs.getD [],
      locations := p.locations.getD [],
      organizations := p.organizations.getD [],
      processedBy := "" }

/-- A model of `JSON.parse` on provider output that contains no parseable
JSON anywhere: every parse attempt fails. -/
def parseAlwaysFails : String → Option RawParsed := fun _ => none

/-! Tracked-subject (POI) aggregation, the `finalAnalysis.entities.forEach`
block of `processDocumentAgent` (`src/App.tsx` lines 282–305). -/

/-- The mention pushed for an entity: `{ docId, docName, context: e.context }`. -/
def mentionOf (docId docName : String) (e : Entity) : Mention :=
  ⟨docId, docName, e.context⟩

/-- The promotion test `isRelevant`: notable, or relevance-pattern role, or a
subject of the same lowercased name already tracked. -/
def poiRelevant (pois : List POI) (e : Entity) : Bool :=
  e.isFamous || relevantRole e.role ||
    pois.any (fun p => lowerStr p.name = lowerStr e.name)

/-- Apply an update to the first subject whose lowercased name matches,
mirroring the JS `find`-then-mutate idiom. -/
def updateFirstPoi (key : String) (f : POI → POI) : List POI → List POI
  | [] => []
  | p :: ps =>
    if lowerStr p.name = key then f p :: ps else p :: updateFirstPoi key f ps

/-- Process one entity of a fresh analysis against the accumulated subjects:
promote it to a new record, or append a mention unless one for this document
id is already present. The source draws the new record's `id` from
`Math.random`; it is opaque to every claim and fixed here. -/
def promoteEntity (docId docName : String) (pois : List POI) (e : Entity) :
    List POI :=
  if poiRelevant pois e then
    if pois.any (fun p => lowerStr p.name = lowerStr e.name) then
      updateFirstPoi (lowerStr e.name)
        (fun p =>
          if p.mentions.any (fun m => m.docId = docId) then p
          else { p with mentions := p.mentions ++ [mentionOf docId docName e] })
        pois
    else
      pois ++ [{ id := "poi", name := e.name,
                 mentions := [mentionOf docId docName e],
                 isPolitical := e.isFamous && politicalRole e.role }]
  else pois

/-- Fold a whole analysis' entity list into the tracked subjects. -/
def updatePois (docId docName : String) (pois : List POI) (es : List Entity) :
    List POI :=
  es.foldl (promoteEntity docId docName) pois

/-- Well-formedness of the tracked subjects: unique per lowercased name, and
at most one mention per source document id on each subject. -/
def PoisInv (pois : List POI) : Prop :=
  (pois.map (fun p => lowerStr p.name)).Nodup ∧
  ∀ p ∈ pois, ∀ docId, p.mentions.countP (fun m => m.docId = docId) ≤ 1

/-! System model: the primary scheduler, the worker entry/exit, the
verification trigger, uploads, retry and reset (`src/App.tsx` lines 154–171,
328–335, 393–417, 419–485). Each constructor of `SysStep` is one synchronous
stretch of source code between suspension points, so it executes atomically
in the browser's single-threaded event loop. -/

/-- The global mutable state the orchestration code touches: the document
list, the tracked subjects, the ids with a blob in `fileStore`, the
processing queue, and the multiset of in-flight primary workers (whose length
is `activeAgentsCount`). -/
structure SysState where
  docs : List ProcessedDocument
  pois : List POI
  blobs : List String
  queue : List String
  workers : List String
deriving DecidableEq, Repr

/-- The bound `MAX_CONCURRENT_AGENTS = 2` of `src/App.tsx`. -/
def MAX_CONCURRENT_AGENTS : Nat := 2

/-- Find a document record by id (`state.documents.find(d => d.id === docId)`). -/
def findDoc (docs : List ProcessedDocument) (id : String) :
    Option ProcessedDocument :=
  docs.find? (fun d => d.id = id)

/-- The `updateDocStatus` mutation: map over the documents, replacing the
status of the matching id. -/
def setDocStatus (docs : List ProcessedDocument) (id : String) (st : Status) :
    List ProcessedDocument :=
  docs.map (fun d => if d.id = id then { d with status := st } else d)

/-- Replace the record of the matching id (`documents.map(d => d.id === docId
? updatedDoc : d)`). -/
def replaceDoc (docs : List ProcessedDocument) (id : String)
    (d' : ProcessedDocument) : List ProcessedDocument :=
  docs.map (fun d => if d.id = id then d' else d)

/-- The synchronous entry of `processDocumentAgent` (lines 154–170): remove
the id from the queue immediately, increment the worker count, and then
either mark the document `processing` (record and blob found — the worker
proceeds) or decrement the count again and return (the early-return path).
The boolean reports whether the worker proceeded. -/
def primaryAgentEntry (s : SysState) (id : String) : SysState × Bool :=
  let s1 : SysState :=
    { s with queue := s.queue.filter (fun x => x ≠ id), workers := id :: s.workers }
  match findDoc s1.docs id with
  | some _ =>
    if s1.blobs.contains id then
      ({ s1 with docs := setDocStatus s1.docs id .processing }, true)
    else
      ({ s1 with workers := s1.workers.erase id }, false)
  | none => ({ s1 with workers := s1.workers.erase id }, false)

/-- One atomic step of the application. `upload` ingests a fresh random id;
`restart` is `restartAnalysis` (re-enqueue every `error`/`pending` document,
deduplicated); `dispatch` is the scheduling effect firing
`processDocumentAgent`'s synchronous prefix; `workerEnd` is the success
`setState` (store analysis and next status, fold the entities into the
subjects, decrement the count); `workerEndLost` is the same when the record
was wiped meanwhile (the map is a no-op but the subjects still update, with
the document name captured at entry); `workerErr` is the catch branch;
`verifEnd` is one completed run of the verification agent; `reset` is
`resetArchive`. -/
inductive SysStep : SysState → SysState → Prop where
  | upload (s : SysState) (id name : String) :
      id ∉ s.docs.map (fun d => d.id) → id ∉ s.queue → id ∉ s.workers →
      SysStep s { s with
        docs := s.docs ++ [⟨id, name, .pending, none, []⟩],
        blobs := s.blobs ++ [id],
        queue := s.queue ++ [id] }
  | restart (s : SysState) :
      SysStep s { s with queue := dedupFirst (s.queue ++
        (s.docs.filter (fun d => d.status = .error || d.status = .pending)).map
          (fun d => d.id)) }
  | dispatch (s : SysState) (id : String) :
      s.queue.head? = some id → s.workers.length < MAX_CONCURRENT_AGENTS →
      SysStep s (primaryAgentEntry s id).1
  | workerEnd (s : SysState) (id : String) (d : ProcessedDocument)
      (a : DocumentAnalysis) (st : Status) (lin : List String) :
      id ∈ s.workers → findDoc s.docs id = some d →
      (st = .completed ∨ st = .verifying) →
      SysStep s { s with
        docs := replaceDoc s.docs id
          { d with status := st, analysis := some a, lineage := lin },
        pois := updatePois id d.name s.pois a.entities,
        workers := s.workers.erase id }
  | workerEndLost (s : SysState) (id docName : String) (a : DocumentAnalysis) :
      id ∈ s.workers → findDoc s.docs id = none →
      SysStep s { s with
        pois := updatePois id docName s.pois a.entities,
        workers := s.workers.erase id }
  | workerErr (s : SysState) (id : String) :
      id ∈ s.workers →
      SysStep s { s with
        docs := setDocStatus s.docs id .error,
        workers := s.workers.erase id }
  | verifEnd (s : SysState) (id : String) (pdfThrows : Bool) (cfg : ModelConfig)
      (outcome : RunOutcome) (d d' : ProcessedDocument) :
      findDoc s.docs id = some d → d.status = .verifying →
      processVerificationAgent (some d) (s.blobs.contains id) pdfThrows cfg
        outcome = some d' →
      SysStep s { s with docs := replaceDoc s.docs id d' }
  | reset (s : SysState) :
      SysStep s { s with docs := [], pois := [], blobs := [], queue := [] }

/-- Reachable states. The base case is a session start: the persisted queue
is never actually written (it is destructured out of the saved state), so the
queue and worker pool begin empty; documents restored from IndexedDB carry
only statuses that were ever persisted (`completed`/`verifying`), with unique
ids; the restored subjects were persisted by an earlier session, which
maintained their invariant. -/
inductive Reach : SysState → Prop where
  | init (docs : List ProcessedDocument) (pois : List POI) (blobs : List String) :
      (∀ d ∈ docs, d.status = .completed ∨ d.status = .verifying) →
      (docs.map (fun d => d.id)).Nodup →
      PoisInv pois →
      Reach ⟨docs, pois, blobs, [], []⟩
  | step (s s' : SysState) : Reach s → SysStep s s' → Reach s'

/-- The inductive invariant of the scheduler state: unique document ids,
duplicate-free queue and worker pool, workers disjoint from the queue,
queued documents `pending`/`error`, in-flight documents `processing`, and
well-formed subjects. -/
def SchedInv (s : SysState) : Prop :=
  (s.docs.map (fun d => d.id)).Nodup ∧
  s.queue.Nodup ∧
  s.workers.Nodup ∧
  (∀ id ∈ s.workers, id ∉ s.queue) ∧
  (∀ id ∈ s.queue, ∀ d, findDoc s.docs id = some d →
    d.status = .pending ∨ d.status = .error) ∧
  (∀ id ∈ s.workers, ∀ d, findDoc s.docs id = some d → d.status = .processing) ∧
  PoisInv s.pois

/-- The status edges the specification allows (section 8 of the spec):
pending→processing→(verifying→completed | completed | error). -/
def specStatusEdges : List (Status × Status) :=
  [(.pending, .processing), (.processing, .verifying), (.processing, .completed),
   (.processing, .error), (.verifying, .completed)]

/-- The status edges the code actually realises: the specified ones plus the
retry edge error→processing taken when `restartAnalysis` re-enqueues a failed
document and the scheduler dispatches it again. -/
def codeStatusEdges : List (Status × Status) :=
  specStatusEdges ++ [(.error, .processing)]

instance decReports (ss : List ProviderSuccess) (p n : String) :
    Decidable (reports ss p n) := by
  unfold reports
  infer_instance

/-! Concrete instances used by counterexamples and witnesses. -/

/-- An analysis with the given summary, entities, insights and flags, and
every remaining field empty. -/
def mkAnalysis (summary : String) (entities : List Entity)
    (keyInsights flaggedPOIs : List String) : DocumentAnalysis :=
  { summary := summary, entities := entities, keyInsights := keyInsights,
    sentiment := "", documentDate := "", flaggedPOIs := flaggedPOIs,
    locations := [], organizations := [], processedBy := "" }

/-- Provider `p1` reports Jane as a non-notable pilot. -/
def c1resA : ProviderSuccess :=
  ⟨"p1", mkAnalysis "sa" [⟨"Jane", "pilot", "c1", false⟩] ["k1"] ["Jane"]⟩

/-- Provider `p2` reports jane (different case) as a non-notable senator with
a different context. -/
def c1resB : ProviderSuccess :=
  ⟨"p2", mkAnalysis "sb" [⟨"jane", "senator", "c2", false⟩] ["k2"] []⟩

/-- Three-provider consensus instance: two providers agree on Jane Doe
without either setting the notable flag; one provider reports Bob alone. -/
def c2res1 : ProviderSuccess :=
  ⟨"gemini", mkAnalysis "s1"
    [⟨"Jane Doe", "guest", "at the party", false⟩, ⟨"Bob", "accountant", "kept books", true⟩]
    [] []⟩

/-- Second provider of the consensus instance. -/
def c2res2 : ProviderSuccess :=
  ⟨"openrouter", mkAnalysis "s2" [⟨"jane doe", "visitor", "was seen", false⟩] [] []⟩

/-- Third provider of the consensus instance, reporting nothing relevant. -/
def c2res3 : ProviderSuccess :=
  ⟨"lmstudio", mkAnalysis "s3" [] [] []⟩

/-- The provider behaviour of the failover scenario: P1 always throws, P2
always succeeds with a non-empty summary. -/
def c3run : String → RunOutcome :=
  fun q => if q = "P2" then .returns (mkAnalysis "findings" [] [] []) else .throws "P1 offline"

/-- A provider behaviour in which every call throws. -/
def c3runFail : String → RunOutcome := fun _ => .throws "offline"

/-- Configuration with providers P1 then P2 enabled, sequential mode. -/
def c3cfg : ModelConfig :=
  ⟨["P1", "P2"], ["P1", "P2"], false, "auto", false⟩

/-- A document sitting in the `verifying` state with a stored analysis. -/
def c5doc : ProcessedDocument :=
  ⟨"v1", "v.pdf", .verifying, some (mkAnalysis "sv" [⟨"Duke", "prince", "cv", true⟩] [] []), ["gemini"]⟩

/-- Dual-check configuration used by the verification instances. -/
def c5cfg : ModelConfig := ⟨["gemini"], ["gemini"], true, "auto", false⟩

/-- A parse model that fails on every string except the brace slice
`\x7bx\x7d`, where it returns a small object — the outermost-brace fallback
scenario for the LM Studio parser. -/
def parseAtSlice : String → Option RawParsed :=
  fun s => if s = "\x7bx\x7d"
    then some ⟨some "ok", some [], some [], none, none, none, none, none⟩
    else none

/-- Projection of the analysis' `processedBy` stored by a worker outcome. -/
def storedProcessedBy (w : WorkerResult) : Option String :=
  match w with
  | .stored a _ _ => some a.processedBy
  | .errored _ => none

/-- Projection of the lineage stored by a worker outcome. -/
def storedLineage (w : WorkerResult) : Option (List String) :=
  match w with
  | .stored _ lin _ => some lin
  | .errored _ => none

/-- A state whose queue holds an id with no document record and no blob. -/
def c10s : SysState := ⟨[], [], [], ["dx"], []⟩

/-- The empty session-start state. -/
def sysStart : SysState := ⟨[], [], [], [], []⟩

/-- The freshly uploaded document `d1`. -/
def dPend : ProcessedDocument := ⟨"d1", "a.pdf", .pending, none, []⟩

/-- The same document once its worker has marked it `processing`. -/
def dProc : ProcessedDocument := ⟨"d1", "a.pdf", .processing, none, []⟩

/-- State after uploading `d1`. -/
def sUp : SysState := ⟨[dPend], [], ["d1"], ["d1"], []⟩

/-- State after the scheduler dispatched `d1`. -/
def sDisp : SysState := ⟨[dProc], [], ["d1"], [], ["d1"]⟩

/-- The analysis the successful worker stores for `d1`. -/
def c7ana : DocumentAnalysis :=
  mkAnalysis "sd" [⟨"Jane Doe", "pilot", "ctx", true⟩] [] []

/-- State after `d1`'s worker stored its analysis and promoted Jane Doe. -/
def sDone : SysState :=
  { sDisp with
    docs := replaceDoc sDisp.docs "d1"
      { dProc with status := .completed, analysis := some c7ana, lineage := ["gemini"] },
    pois := updatePois "d1" dProc.name sDisp.pois c7ana.entities,
    workers := sDisp.workers.erase "d1" }

/-- State after `d1`'s worker instead failed (catch branch). -/
def sErr : SysState :=
  { sDisp with
    docs := setDocStatus sDisp.docs "d1" .error,
    workers := sDisp.workers.erase "d1" }

/-- State after the user hit retry: the errored `d1` is re-enqueued. -/
def sRe : SysState :=
  { sErr with queue := dedupFirst (sErr.queue ++
    (sErr.docs.filter (fun d => d.status = .error || d.status = .pending)).map
      (fun d => d.id)) }

theorem mem_foldl_dedup (l : List String) :
    ∀ (acc : List String) (x : String),
      x ∈ l.foldl (fun acc x => if x ∈ acc then acc else acc ++ [x]) acc ↔
        x ∈ acc ∨ x ∈ l := by
  induction l with
  | nil => intro acc x; simp
  | cons y ys ih =>
    intro acc x
    simp only [List.foldl_cons]
    rw [ih]
    by_cases hy : y ∈ acc
    · simp only [if_pos hy]
      constructor
      · rintro (h | h)
        · exact Or.inl h
        · exact Or.inr (List.mem_cons_of_mem _ h)
      · rintro (h | h)
        · exact Or.inl h
        · rcases List.mem_cons.mp h with rfl | h
          · exact Or.inl hy
          · exact Or.inr h
    · simp only [if_neg hy]
      constructor
      · rintro (h | h)
        · rcases List.mem_append.mp h with h | h
          · exact Or.inl h
          · simp at h; subst h; exact Or.inr (List.mem_cons_self _ _)
        · exact Or.inr (List.mem_cons_of_mem _ h)
      · rintro (h | h)
        · exact Or.inl (List.mem_append.mpr (Or.inl h))
        · rcases List.mem_cons.mp h with rfl | h
          · exact Or.inl (List.mem_append.mpr (Or.inr (by simp)))
          · exact Or.inr h

theorem mem_dedupFirst (l : List String) (x : String) :
    x ∈ dedupFirst l ↔ x ∈ l := by
  unfold dedupFirst
  rw [mem_foldl_dedup]
  simp

theorem nodup_foldl_dedup (l : List String) :
    ∀ acc : List String, acc.Nodup →
      (l.foldl (fun acc x => if x ∈ acc then acc else acc ++ [x]) acc).Nodup := by
  induction l with
  | nil => intro acc h; simpa using h
  | cons y ys ih =>
    intro acc h
    simp only [List.foldl_cons]
    by_cases hy : y ∈ acc
    · rw [if_pos hy]; exact ih acc h
    · rw [if_neg hy]
      refine ih _ ?_
      rw [← List.concat_eq_append]
      exact h.concat hy

theorem nodup_dedupFirst (l : List String) : (dedupFirst l).Nodup :=
  nodup_foldl_dedup l [] List.nodup_nil

theorem lookupKey_map_upd (m : List (String × MergedEntity)) (key : String)
    (g : MergedEntity → MergedEntity) (k : String) :
    lookupKey (m.map (fun kv => if kv.1 = key then (kv.1, g kv.2) else kv)) k =
      (lookupKey m k).map (fun kv => if kv.1 = key then (kv.1, g kv.2) else kv) := by
  induction m with
  | nil => rfl
  | cons hd t ih =>
    have h1 : (if hd.1 = key then (hd.1, g hd.2) else hd).1 = hd.1 := by
      by_cases hkey : hd.1 = key <;> simp [hkey]
    simp only [List.map_cons, lookupKey]
    by_cases hk : hd.1 = k
    · rw [List.find?_cons_of_pos _ (by simp only [h1, decide_eq_true_eq]; exact hk),
        List.find?_cons_of_pos _ (by simp only [decide_eq_true_eq]; exact hk)]
      rfl
    · rw [List.find?_cons_of_neg _
          (by simp only [h1, decide_eq_true_eq, Bool.not_eq_true]
              simpa using hk),
        List.find?_cons_of_neg _
          (by simp only [decide_eq_true_eq, Bool.not_eq_true]
              simpa using hk)]
      exact ih

theorem lookupKey_append_one (m : List (String × MergedEntity))
    (x : String × MergedEntity) (k : String) :
    lookupKey (m ++ [x]) k =
      (lookupKey m k).or (if x.1 = k then some x else none) := by
  simp [lookupKey, List.find?_append, List.find?]
  by_cases hx : x.1 = k <;> simp [hx]

theorem lookupKey_eq_none_of_not_any (m : List (String × MergedEntity))
    (key : String) (h : m.any (fun kv => kv.1 = key) = false) :
    lookupKey m key = none := by
  rw [lookupKey, List.find?_eq_none]
  intro kv hkv
  have := List.any_eq_false.mp h kv hkv
  simpa using this

theorem lookupKey_entityMapStep (m : List (String × MergedEntity))
    (pe : String × Entity) (k : String) :
    lookupKey (entityMapStep m pe) k =
      if k = lowerStr pe.2.name then
        match lookupKey m k with
        | some kv => some (kv.1, addSource kv.2 pe.1)
        | none => some (lowerStr pe.2.name, ⟨pe.2, [pe.1]⟩)
      else lookupKey m k := by
  unfold entityMapStep
  by_cases hany : m.any (fun kv => kv.1 = lowerStr pe.2.name) = true
  · rw [if_pos hany,
      lookupKey_map_upd m (lowerStr pe.2.name) (fun x => addSource x pe.1) k]
    by_cases hk : k = lowerStr pe.2.name
    · rw [if_pos hk]
      cases hlk : lookupKey m k with
      | none =>
        obtain ⟨kv, hkv, hkv1⟩ := List.any_eq_true.mp hany
        rw [lookupKey, List.find?_eq_none] at hlk
        have := hlk kv hkv
        simp only [decide_eq_true_eq] at this hkv1
        exact absurd (hkv1.trans hk.symm) this
      | some kv =>
        have hkv1 : kv.1 = k := by
          simpa using List.find?_some hlk
        simp [hkv1, hk]
    · rw [if_neg hk]
      cases hlk : lookupKey m k with
      | none => rfl
      | some kv =>
        have hkv1 : kv.1 = k := by
          simpa using List.find?_some hlk
        have hne : ¬ (kv.1 = lowerStr pe.2.name) := by
          rw [hkv1]; exact hk
        simp [hne]
  · have hanyf : m.any (fun kv => kv.1 = lowerStr pe.2.name) = false := by
      cases h : m.any (fun kv => kv.1 = lowerStr pe.2.name) with
      | false => rfl
      | true => exact absurd h hany
    rw [if_neg hany, lookupKey_append_one]
    have hnone : lookupKey m (lowerStr pe.2.name) = none :=
      lookupKey_eq_none_of_not_any m _ hanyf
    by_cases hk : k = lowerStr pe.2.name
    · rw [hk, hnone]
      simp
    · rw [if_neg hk]
      have hne : ¬ ((lowerStr pe.2.name, (⟨pe.2, [pe.1]⟩ : MergedEntity)).1 = k) :=
        fun h => hk h.symm
      cases hlk : lookupKey m k with
      | none => simp [hne]
      | some kv => simp [hne]

theorem mem_addSource (me : MergedEntity) (p q : String) :
    q ∈ (addSource me p).sources ↔ q ∈ me.sources ∨ q = p := by
  unfold addSource
  by_cases hp : p ∈ me.sources
  · simp only [if_pos hp]
    constructor
    · exact Or.inl
    · rintro (h | rfl)
      · exact h
      · exact hp
  · simp [if_neg hp]

theorem inSources_step (m : List (String × MergedEntity)) (pe : String × Entity)
    (k p : String) :
    inSources (entityMapStep m pe) k p ↔
      inSources m k p ∨ (pe.1 = p ∧ lowerStr pe.2.name = k) := by
  unfold inSources
  rw [lookupKey_entityMapStep]
  by_cases hk : k = lowerStr pe.2.name
  · rw [if_pos hk]
    cases hlk : lookupKey m k with
    | none =>
      constructor
      · rintro ⟨kv, hkv, hmem⟩
        injection hkv with hkv
        subst hkv
        simp only [List.mem_singleton] at hmem
        exact Or.inr ⟨hmem.symm, hk.symm⟩
      · rintro (⟨kv, hkv, _⟩ | ⟨hpe, _⟩)
        · cases hkv
        · exact ⟨_, rfl, by simp [hpe]⟩
    | some kv =>
      constructor
      · rintro ⟨kv', hkv', hmem⟩
        injection hkv' with hkv'
        subst hkv'
        rcases (mem_addSource _ _ _).mp hmem with h | h
        · exact Or.inl ⟨kv, rfl, h⟩
        · exact Or.inr ⟨h.symm, hk.symm⟩
      · rintro (⟨kv', hkv', hmem⟩ | ⟨hpe, _⟩)
        · injection hkv' with hkv'
          subst hkv'
          exact ⟨_, rfl, (mem_addSource _ _ _).mpr (Or.inl hmem)⟩
        · exact ⟨_, rfl, (mem_addSource _ _ _).mpr (Or.inr hpe.symm)⟩
  · rw [if_neg hk]
    simp only [iff_self_or]
    rintro ⟨hpe, hname⟩
    exact absurd hname.symm hk

theorem inSources_foldl (occs : List (String × Entity)) :
    ∀ (m : List (String × MergedEntity)) (k p : String),
      inSources (occs.foldl entityMapStep m) k p ↔
        inSources m k p ∨ ∃ pe ∈ occs, pe.1 = p ∧ lowerStr pe.2.name = k := by
  induction occs with
  | nil => intro m k p; simp
  | cons pe occs ih =>
    intro m k p
    simp only [List.foldl_cons]
    rw [ih, inSources_step]
    constructor
    · rintro ((h | h) | ⟨pe', hpe', h1, h2⟩)
      · exact Or.inl h
      · exact Or.inr ⟨pe, List.mem_cons_self _ _, h⟩
      · exact Or.inr ⟨pe', List.mem_cons_of_mem _ hpe', h1, h2⟩
    · rintro (h | ⟨pe', hpe', h1, h2⟩)
      · exact Or.inl (Or.inl h)
      · rcases List.mem_cons.mp hpe' with rfl | hpe'
        · exact Or.inl (Or.inr ⟨h1, h2⟩)
        · exact Or.inr ⟨pe', hpe', h1, h2⟩

theorem hasKey_step (m : List (String × MergedEntity)) (pe : String × Entity)
    (k : String) :
    (lookupKey (entityMapStep m pe) k).isSome ↔
      (lookupKey m k).isSome ∨ lowerStr pe.2.name = k := by
  rw [lookupKey_entityMapStep]
  by_cases hk : k = lowerStr pe.2.name
  · rw [if_pos hk]
    cases hlk : lookupKey m k <;> simp [hk.symm]
  · rw [if_neg hk]
    have hne : ¬ (lowerStr pe.2.name = k) := fun h => hk h.symm
    simp [hne]

theorem hasKey_foldl (occs : List (String × Entity)) :
    ∀ (m : List (String × MergedEntity)) (k : String),
      (lookupKey (occs.foldl entityMapStep m) k).isSome ↔
        (lookupKey m k).isSome ∨ ∃ pe ∈ occs, lowerStr pe.2.name = k := by
  induction occs with
  | nil => intro m k; simp
  | cons pe occs ih =>
    intro m k
    simp only [List.foldl_cons]
    rw [ih, hasKey_step]
    constructor
    · rintro ((h | h) | ⟨pe', hpe', h2⟩)
      · exact Or.inl h
      · exact Or.inr ⟨pe, List.mem_cons_self _ _, h⟩
      · exact Or.inr ⟨pe', List.mem_cons_of_mem _ hpe', h2⟩
    · rintro (h | ⟨pe', hpe', h2⟩)
      · exact Or.inl (Or.inl h)
      · rcases List.mem_cons.mp hpe' with rfl | hpe'
        · exact Or.inl (Or.inr h2)
        · exact Or.inr ⟨pe', hpe', h2⟩

theorem firstPreserved_foldl (occs : List (String × Entity)) :
    ∀ (m : List (String × MergedEntity)) (k : String) (kv : String × MergedEntity),
      lookupKey m k = some kv →
      ∃ kv', lookupKey (occs.foldl entityMapStep m) k = some kv' ∧
        kv'.1 = kv.1 ∧ kv'.2.first = kv.2.first := by
  induction occs with
  | nil => intro m k kv h; exact ⟨kv, h, rfl, rfl⟩
  | cons pe occs ih =>
    intro m k kv h
    simp only [List.foldl_cons]
    by_cases hk : k = lowerStr pe.2.name
    · have hstep : lookupKey (entityMapStep m pe) k = some (kv.1, addSource kv.2 pe.1) := by
        rw [lookupKey_entityMapStep, if_pos hk, h]
      obtain ⟨kv', h1, h2, h3⟩ := ih _ _ _ hstep
      exact ⟨kv', h1, h2, h3⟩
    · have hstep : lookupKey (entityMapStep m pe) k = some kv := by
        rw [lookupKey_entityMapStep, if_neg hk, h]
      exact ih _ _ _ hstep

theorem firstFromOccs_foldl (occs : List (String × Entity)) :
    ∀ (m : List (String × MergedEntity)) (k : String) (kv : String × MergedEntity),
      lookupKey m k = none →
      lookupKey (occs.foldl entityMapStep m) k = some kv →
      (occs.find? (fun pe => lowerStr pe.2.name = k)).map (fun pe => pe.2) =
        some kv.2.first := by
  induction occs with
  | nil =>
    intro m k kv h0 h1
    rw [List.foldl_nil, h0] at h1
    cases h1
  | cons pe occs ih =>
    intro m k kv h0 h1
    simp only [List.foldl_cons] at h1
    by_cases hk : k = lowerStr pe.2.name
    · have hstep : lookupKey (entityMapStep m pe) k =
          some (lowerStr pe.2.name, ⟨pe.2, [pe.1]⟩) := by
        rw [lookupKey_entityMapStep, if_pos hk, h0]
      obtain ⟨kv', h2, _, h4⟩ := firstPreserved_foldl occs _ _ _ hstep
      rw [h1] at h2
      injection h2 with h2; subst h2
      rw [List.find?_cons_of_pos _ (by simpa using hk.symm)]
      simpa using h4.symm
    · have hstep : lookupKey (entityMapStep m pe) k = none := by
        rw [lookupKey_entityMapStep, if_neg hk, h0]
      rw [List.find?_cons_of_neg _ (by simpa using fun h => hk h.symm)]
      exact ih _ _ _ hstep h1

theorem goodEntry_step (m : List (String × MergedEntity)) (pe : String × Entity)
    (hm : ∀ kv ∈ m, GoodEntry kv) :
    ∀ kv ∈ entityMapStep m pe, GoodEntry kv := by
  intro kv hkv
  unfold entityMapStep at hkv
  by_cases hany : m.any (fun kv => kv.1 = lowerStr pe.2.name) = true
  · rw [if_pos hany] at hkv
    obtain ⟨kv₀, hkv₀, hf⟩ := List.mem_map.mp hkv
    by_cases hkey : kv₀.1 = lowerStr pe.2.name
    · rw [if_pos hkey] at hf
      subst hf
      obtain ⟨hnd, hkeyinv⟩ := hm kv₀ hkv₀
      refine ⟨?_, hkeyinv⟩
      unfold addSource
      by_cases hp : pe.1 ∈ kv₀.2.sources
      · simpa [if_pos hp] using hnd
      · rw [if_neg hp]
        simpa [← List.concat_eq_append] using hnd.concat hp
    · rw [if_neg hkey] at hf
      subst hf
      exact hm kv₀ hkv₀
  · rw [if_neg hany] at hkv
    rcases List.mem_append.mp hkv with h | h
    · exact hm kv h
    · simp only [List.mem_singleton] at h
      subst h
      exact ⟨List.nodup_singleton _, rfl⟩

theorem goodEntry_foldl (occs : List (String × Entity)) :
    ∀ (m : List (String × MergedEntity)), (∀ kv ∈ m, GoodEntry kv) →
      ∀ kv ∈ occs.foldl entityMapStep m, GoodEntry kv := by
  induction occs with
  | nil => intro m hm; simpa using hm
  | cons pe occs ih =>
    intro m hm
    simp only [List.foldl_cons]
    exact ih _ (goodEntry_step m pe hm)

theorem goodEntry_entityMapOf (ss : List ProviderSuccess) :
    ∀ kv ∈ entityMapOf ss, GoodEntry kv :=
  goodEntry_foldl (allEntities ss) [] (by simp)

theorem inSources_entityMapOf (ss : List ProviderSuccess) (n p : String) :
    inSources (entityMapOf ss) n p ↔ reports ss p n := by
  unfold entityMapOf reports
  rw [inSources_foldl]
  have h0 : ¬ inSources [] n p := by
    rintro ⟨kv, hkv, _⟩
    cases hkv
  simp only [h0, false_or]

theorem two_mem_one_lt_length (l : List String) (p₁ p₂ : String)
    (h1 : p₁ ∈ l) (h2 : p₂ ∈ l) (hne : p₁ ≠ p₂) : 1 < l.length := by
  match l with
  | [] => cases h1
  | [a] =>
    simp only [List.mem_singleton] at h1 h2
    exact absurd (h1.trans h2.symm) hne
  | a :: b :: t => simp

theorem length_le_one_of_nodup_all_eq (l : List String) (p₀ : String)
    (hnd : l.Nodup) (hall : ∀ q ∈ l, q = p₀) : l.length ≤ 1 := by
  match l with
  | [] => simp
  | [a] => simp
  | a :: b :: t =>
    have ha := hall a (by simp)
    have hb := hall b (by simp)
    have : a ≠ b := by
      intro hab
      exact (List.nodup_cons.mp hnd).1 (hab ▸ List.mem_cons_self _ _)
    exact absurd (ha.trans hb.symm) this

theorem consolidate_name (me : MergedEntity) :
    (consolidate me).name = me.first.name := rfl

theorem mergeEntities_name_iff (ss : List ProviderSuccess) (n : String) :
    (∃ e ∈ mergeEntities ss, lowerStr e.name = n) ↔
      ∃ pe ∈ allEntities ss, lowerStr pe.2.name = n := by
  constructor
  · rintro ⟨e, he, hn⟩
    obtain ⟨kv, hkv, rfl⟩ := List.mem_map.mp he
    have hgood := goodEntry_entityMapOf ss kv hkv
    have hk : kv.1 = n := by
      rw [← hgood.2, ← hn, consolidate_name]
    have hsome : (lookupKey (entityMapOf ss) kv.1).isSome := by
      rw [lookupKey, List.find?_isSome]
      exact ⟨kv, hkv, by simp⟩
    rw [entityMapOf] at hsome
    rcases (hasKey_foldl (allEntities ss) [] kv.1).mp hsome with h | h
    · cases h' : lookupKey [] kv.1 with
      | none => rw [h'] at h; cases h
      | some kv' => cases h'
    · exact hk ▸ h
  · rintro ⟨pe, hpe, hn⟩
    have hsome : (lookupKey (entityMapOf ss) n).isSome := by
      rw [entityMapOf]
      exact (hasKey_foldl (allEntities ss) [] n).mpr (Or.inr ⟨pe, hpe, hn⟩)
    obtain ⟨kv, hkv⟩ := Option.isSome_iff_exists.mp hsome
    have hkv1 : kv.1 = n := by
      simpa using List.find?_some hkv
    have hmem : kv ∈ entityMapOf ss := List.mem_of_find?_eq_some hkv
    have hgood := goodEntry_entityMapOf ss kv hmem
    refine ⟨consolidate kv.2, List.mem_map.mpr ⟨kv, hmem, rfl⟩, ?_⟩
    rw [consolidate_name, hgood.2, hkv1]

/-- C1 counterexample: the consensus merge is not order-independent at the
level of full entity records. Providers `p1` and `p2` both report the same
normalized name with different surface fields, so the merged entity — whose
role, context and name casing come from the first arrival — differs between
the two arrival orders: the record stored for the order `[A, B]` does not
occur at all in the merge of `[B, A]`. -/
theorem c1_counterexample :
    [c1resA, c1resB].Perm [c1resB, c1resA] ∧
    (⟨"Jane", "pilot", "[SWARM CONFIRMED]: c1", true⟩ : Entity) ∈
      mergeEntities [c1resA, c1resB] ∧
    (⟨"Jane", "pilot", "[SWARM CONFIRMED]: c1", true⟩ : Entity) ∉
      mergeEntities [c1resB, c1resA] :=
  ⟨List.Perm.swap c1resB c1resA [], by decide, by decide⟩

/-- C1 (amended): the parallel-consensus merge is order-independent for the
key-insight set, the flagged-subject set, and the set of normalized
(lowercased) entity names; the surface fields of a merged entity (name
casing, role, context text) follow the first result that mentions the name
and may therefore depend on arrival order. -/
theorem c1_merge_order_independent (ss₁ ss₂ : List ProviderSuccess)
    (hperm : ss₁.Perm ss₂) :
    (∀ x, x ∈ mergedKeyInsights ss₁ ↔ x ∈ mergedKeyInsights ss₂) ∧
    (∀ x, x ∈ mergedFlaggedPOIs ss₁ ↔ x ∈ mergedFlaggedPOIs ss₂) ∧
    (∀ n, (∃ e ∈ mergeEntities ss₁, lowerStr e.name = n) ↔
      (∃ e ∈ mergeEntities ss₂, lowerStr e.name = n)) := by
  have hmem : ∀ (f : ProviderSuccess → List String) (x : String),
      x ∈ ss₁.flatMap f ↔ x ∈ ss₂.flatMap f := by
    intro f x
    rw [List.mem_flatMap, List.mem_flatMap]
    constructor
    · rintro ⟨s, hs, hx⟩
      exact ⟨s, hperm.mem_iff.mp hs, hx⟩
    · rintro ⟨s, hs, hx⟩
      exact ⟨s, hperm.mem_iff.mpr hs, hx⟩
  refine ⟨?_, ?_, ?_⟩
  · intro x
    unfold mergedKeyInsights
    rw [mem_dedupFirst, mem_dedupFirst]
    exact hmem _ x
  · intro x
    unfold mergedFlaggedPOIs
    rw [mem_dedupFirst, mem_dedupFirst]
    exact hmem _ x
  · intro n
    rw [mergeEntities_name_iff, mergeEntities_name_iff]
    unfold allEntities
    constructor
    · rintro ⟨pe, hpe, hn⟩
      rw [List.mem_flatMap] at hpe
      obtain ⟨s, hs, hpe⟩ := hpe
      exact ⟨pe, List.mem_flatMap.mpr ⟨s, hperm.mem_iff.mp hs, hpe⟩, hn⟩
    · rintro ⟨pe, hpe, hn⟩
      rw [List.mem_flatMap] at hpe
      obtain ⟨s, hs, hpe⟩ := hpe
      exact ⟨pe, List.mem_flatMap.mpr ⟨s, hperm.mem_iff.mpr hs, hpe⟩, hn⟩

/-- C1 witness: the permutation-invariance theorem applied at the concrete
two-provider instance. -/
theorem c1_witness :
    ("k2" ∈ mergedKeyInsights [c1resA, c1resB] ↔
      "k2" ∈ mergedKeyInsights [c1resB, c1resA]) :=
  (c1_merge_order_independent [c1resA, c1resB] [c1resB, c1resA]
    (List.Perm.swap c1resB c1resA [])).1 "k2"

/-- C2: in the parallel-consensus merge, a normalized entity name reported by
two distinct successful providers yields a merged entity that is marked
notable (`isFamous = true`) regardless of the individual flags, with its
context tagged by the cross-verification prefix `[SWARM CONFIRMED]: `; and a
name reported by only one provider keeps that provider's own flag (the flag
of its first occurrence in that provider's entity list). -/
theorem c2_consensus_notability :
    (∀ (ss : List ProviderSuccess) (n p₁ p₂ : String),
      p₁ ≠ p₂ → reports ss p₁ n → reports ss p₂ n →
      ∃ e ∈ mergeEntities ss, lowerStr e.name = n ∧ e.isFamous = true ∧
        ∃ c, e.context = "[SWARM CONFIRMED]: " ++ c) ∧
    (∀ (ss : List ProviderSuccess) (n p₀ : String) (e₀ : Entity),
      (∀ pe ∈ allEntities ss, lowerStr pe.2.name = n → pe.1 = p₀) →
      firstReported ss n = some e₀ →
      ∃ e ∈ mergeEntities ss, lowerStr e.name = n ∧ e.isFamous = e₀.isFamous) := by
  constructor
  · intro ss n p₁ p₂ hne h1 h2
    obtain ⟨kv, hkv, hp1⟩ := (inSources_entityMapOf ss n p₁).mpr h1
    obtain ⟨kv', hkv', hp2⟩ := (inSources_entityMapOf ss n p₂).mpr h2
    rw [hkv] at hkv'
    injection hkv' with hkv'
    subst hkv'
    have hlen : 1 < kv.2.sources.length :=
      two_mem_one_lt_length _ p₁ p₂ hp1 hp2 hne
    have hmem : kv ∈ entityMapOf ss := List.mem_of_find?_eq_some hkv
    have hgood := goodEntry_entityMapOf ss kv hmem
    have hk1 : kv.1 = n := by
      simpa using List.find?_some hkv
    refine ⟨consolidate kv.2, List.mem_map.mpr ⟨kv, hmem, rfl⟩, ?_, ?_, ?_⟩
    · rw [consolidate_name, hgood.2, hk1]
    · unfold consolidate
      simp [hlen]
    · unfold consolidate
      simp only [if_pos hlen]
      exact ⟨kv.2.first.context, rfl⟩
  · intro ss n p₀ e₀ hall hfirst
    have hx : ∃ pe ∈ allEntities ss, lowerStr pe.2.name = n := by
      unfold firstReported at hfirst
      cases hf : (allEntities ss).find? (fun pe => lowerStr pe.2.name = n) with
      | none => rw [hf] at hfirst; cases hfirst
      | some pe =>
        exact ⟨pe, List.mem_of_find?_eq_some hf, by simpa using List.find?_some hf⟩
    have hsome : (lookupKey (entityMapOf ss) n).isSome := by
      rw [entityMapOf]
      exact (hasKey_foldl _ [] n).mpr (Or.inr hx)
    obtain ⟨kv, hkv⟩ := Option.isSome_iff_exists.mp hsome
    have hk1 : kv.1 = n := by
      simpa using List.find?_some hkv
    have hmem : kv ∈ entityMapOf ss := List.mem_of_find?_eq_some hkv
    have hgood := goodEntry_entityMapOf ss kv hmem
    have hfn : kv.2.first = e₀ := by
      have h1 := firstFromOccs_foldl (allEntities ss) [] n kv rfl
        (by rw [← entityMapOf]; exact hkv)
      unfold firstReported at hfirst
      rw [hfirst] at h1
      injection h1 with h1
      exact h1.symm
    have hsub : ∀ q ∈ kv.2.sources, q = p₀ := by
      intro q hq
      obtain ⟨pe, hpe, hq', hn'⟩ :=
        (inSources_entityMapOf ss n q).mp ⟨kv, hkv, hq⟩
      rw [← hq']
      exact hall pe hpe hn'
    have hlen : kv.2.sources.length ≤ 1 :=
      length_le_one_of_nodup_all_eq _ p₀ hgood.1 hsub
    have hnlt : ¬ (1 < kv.2.sources.length) := by omega
    refine ⟨consolidate kv.2, List.mem_map.mpr ⟨kv, hmem, rfl⟩, ?_, ?_⟩
    · rw [consolidate_name, hgood.2, hk1]
    · unfold consolidate
      simp [hnlt, hfn]

/-- C2 witness: across the three concrete providers, Jane Doe — reported by
exactly two of them, with no individual flag — is merged notable and tagged
cross-verified; Bob, reported only by the first provider, keeps that
provider's own flag. -/
theorem c2_witness :
    (∃ e ∈ mergeEntities [c2res1, c2res2, c2res3], lowerStr e.name = "jane doe" ∧
      e.isFamous = true ∧ ∃ c, e.context = "[SWARM CONFIRMED]: " ++ c) ∧
    (∃ e ∈ mergeEntities [c2res1, c2res2, c2res3], lowerStr e.name = "bob" ∧
      e.isFamous = (⟨"Bob", "accountant", "kept books", true⟩ : Entity).isFamous) :=
  ⟨c2_consensus_notability.1 [c2res1, c2res2, c2res3] "jane doe" "gemini"
      "openrouter" (by decide) (by decide) (by decide),
   c2_consensus_notability.2 [c2res1, c2res2, c2res3] "bob" "gemini"
      ⟨"Bob", "accountant", "kept books", true⟩ (by decide) (by decide)⟩

/-- C8 counterexample: the OpenRouter provider does not recover from a parse
failure into a degraded result — on output that is not JSON it throws the
parse error, which contradicts the claim that every provider implementation
recovers locally. -/
theorem c8_counterexample :
    openRouterParsePipeline parseAlwaysFails
        "I cannot produce structured output for this document." =
      Except.error "Model failed to return valid JSON. Check the logs for raw output." :=
  rfl

/-- C8 (amended): the LM Studio provider recovers locally — it strips think
tags and code fences, attempts a direct parse, then parses the substring
between the outermost brace pair, and if both attempts fail returns a
degraded result (raw-text snippets as summary and sole key insight, empty
entity and flagged-subject lists) instead of raising; the OpenRouter provider
only strips code fences and attempts a single direct parse, raising a parse
error on failure. -/
theorem c8_parse_recovery :
    (∀ (parse : String → Option RawParsed) (raw : String),
      parse (cleanLMContent raw) = none →
      (∀ sub, braceSlice (cleanLMContent raw) = some sub → parse sub = none) →
      (lmParsePipeline parse raw).entities = [] ∧
      (lmParsePipeline parse raw).flaggedPOIs = [] ∧
      (lmParsePipeline parse raw).summary =
        (if jsSubstring raw 500 = "" then "Could not extract summary."
         else jsSubstring raw 500) ∧
      (lmParsePipeline parse raw).keyInsights = [jsSubstring raw 200]) ∧
    (∀ (parse : String → Option RawParsed) (raw sub : String) (p : RawParsed),
      parse (cleanLMContent raw) = none →
      braceSlice (cleanLMContent raw) = some sub → parse sub = some p →
      lmParsePipeline parse raw =
        { summary := jsOr p.summary "Summary extraction failed.",
          entities := p.entities.getD [],
          keyInsights := p.keyInsights.getD [],
          sentiment := jsOr p.sentiment "Local Analysis",
          documentDate := jsOr p.documentDate "Unknown",
          flaggedPOIs := p.flaggedPOIs.getD [],
          locations := p.locations.getD [],
          organizations := p.organizations.getD [],
          processedBy := "" }) ∧
    (∀ (parse : String → Option RawParsed) (raw : String),
      parse (cleanJsonResponse raw) = none →
      openRouterParsePipeline parse raw =
        Except.error "Model failed to return valid JSON. Check the logs for raw output.") := by
  refine ⟨?_, ?_, ?_⟩
  · intro parse raw h1 h2
    have hobj : lmParsedObject parse raw = none := by
      unfold lmParsedObject
      rw [h1]
      cases hb : braceSlice (cleanLMContent raw) with
      | none => rfl
      | some sub => exact h2 sub hb
    unfold lmParsePipeline
    rw [hobj]
    exact ⟨rfl, rfl, rfl, rfl⟩
  · intro parse raw sub p h1 hb hp
    have hobj : lmParsedObject parse raw = some p := by
      unfold lmParsedObject
      rw [h1, hb]
      exact hp
    unfold lmParsePipeline
    rw [hobj]
  · intro parse raw h1
    unfold openRouterParsePipeline
    rw [h1]

/-- C8 witness: the recovery theorem applied to concrete provider outputs —
plain prose through the LM Studio pipeline yields the degraded result, prose
containing an embedded brace pair is rescued by the fallback, and the same
prose through the OpenRouter pipeline raises. -/
theorem c8_witness :
    ((lmParsePipeline parseAlwaysFails "Sorry, plain text only.").entities = [] ∧
      (lmParsePipeline parseAlwaysFails "Sorry, plain text only.").flaggedPOIs = [] ∧
      (lmParsePipeline parseAlwaysFails "Sorry, plain text only.").summary =
        (if jsSubstring "Sorry, plain text only." 500 = ""
         then "Could not extract summary."
         else jsSubstring "Sorry, plain text only." 500) ∧
      (lmParsePipeline parseAlwaysFails "Sorry, plain text only.").keyInsights =
        [jsSubstring "Sorry, plain text only." 200]) ∧
    (lmParsePipeline parseAtSlice "noise \x7bx\x7d tail" =
      { summary := "ok", entities := [], keyInsights := [],
        sentiment := "Local Analysis", documentDate := "Unknown",
        flaggedPOIs := [], locations := [], organizations := [],
        processedBy := "" }) ∧
    (openRouterParsePipeline parseAlwaysFails "Sorry, plain text only." =
      Except.error "Model failed to return valid JSON. Check the logs for raw output.") :=
  ⟨c8_parse_recovery.1 parseAlwaysFails "Sorry, plain text only." rfl
      (fun _ _ => rfl),
   c8_parse_recovery.2.1 parseAtSlice "noise \x7bx\x7d tail" "\x7bx\x7d"
      ⟨some "ok", some [], some [], none, none, none, none, none⟩
      (by decide) (by decide) (by decide),
   c8_parse_recovery.2.2 parseAlwaysFails "Sorry, plain text only." rfl⟩

/-- C9 counterexample: after the parallel merge the orchestrator overwrites
`processedBy` with the constant `'Parallel Swarm'` (`analysis.processedBy =
finalProvider`, `src/App.tsx` line 262), so the final stored value is the
same for two different sets of contributing providers and records neither. -/
theorem c9_counterexample :
    storedProcessedBy (parallelOutcome [c2res1, c2res2] [] false) =
      some "Parallel Swarm" ∧
    storedProcessedBy (parallelOutcome [c2res3] [] false) =
      some "Parallel Swarm" ∧
    "Parallel Swarm" ≠ swarmTag [c2res1, c2res2] :=
  ⟨by decide, by decide, by decide⟩

/-- C9 (amended): the Consensus Merger itself sets `processedBy` to
`Swarm (p1+…+pn)`, listing every contributing provider, but the orchestrator
then overwrites the stored value with the constant `'Parallel Swarm'`; the
full contributing-provider set is recorded in the document's lineage
instead. -/
theorem c9_processed_by_overwritten (s0 : ProviderSuccess)
    (rest : List ProviderSuccess) (errs : List String) (dc : Bool) :
    ∃ a, mergeConsensus (s0 :: rest) = some a ∧
      a.processedBy = swarmTag (s0 :: rest) ∧
      storedProcessedBy (parallelOutcome (s0 :: rest) errs dc) =
        some "Parallel Swarm" ∧
      storedLineage (parallelOutcome (s0 :: rest) errs dc) =
        some ((s0 :: rest).map (fun s => s.provider)) :=
  ⟨_, rfl, rfl, rfl, rfl⟩

theorem seqFailover_skip (run : String → RunOutcome) (pre : List String)
    (hpre : ∀ q ∈ pre, (∃ m, run q = .throws m) ∨
      ∃ b, run q = .returns b ∧ b.summary = "") :
    ∀ (rest : List String) (an : Option DocumentAnalysis) (lin : List String)
      (fp : String),
      ∃ an', seqFailover run (pre ++ rest) an lin fp =
        seqFailover run rest an' (lin ++ pre) fp := by
  induction pre with
  | nil =>
    intro rest an lin fp
    exact ⟨an, by simp⟩
  | cons q pre ih =>
    intro rest an lin fp
    have hpre' : ∀ r ∈ pre, (∃ m, run r = .throws m) ∨
        ∃ b, run r = .returns b ∧ b.summary = "" :=
      fun r hr => hpre r (List.mem_cons_of_mem _ hr)
    rcases hpre q (List.mem_cons_self _ _) with ⟨m, hm⟩ | ⟨b, hb, hbs⟩
    · have e1 : seqFailover run (q :: (pre ++ rest)) an lin fp =
          seqFailover run (pre ++ rest) an (lin ++ [q]) fp := by
        show (match run q with
          | RunOutcome.throws _ => seqFailover run (pre ++ rest) an (lin ++ [q]) fp
          | RunOutcome.returns a =>
            if a.summary = "" then
              seqFailover run (pre ++ rest) (some a) (lin ++ [q]) fp
            else (some a, lin ++ [q], q)) = _
        rw [hm]
      obtain ⟨an', h⟩ := ih hpre' rest an (lin ++ [q]) fp
      refine ⟨an', ?_⟩
      rw [List.cons_append, e1, h]
      simp
    · have e1 : seqFailover run (q :: (pre ++ rest)) an lin fp =
          seqFailover run (pre ++ rest) (some b) (lin ++ [q]) fp := by
        show (match run q with
          | RunOutcome.throws _ => seqFailover run (pre ++ rest) an (lin ++ [q]) fp
          | RunOutcome.returns a =>
            if a.summary = "" then
              seqFailover run (pre ++ rest) (some a) (lin ++ [q]) fp
            else (some a, lin ++ [q], q)) = _
        rw [hb]
        show (if b.summary = "" then
            seqFailover run (pre ++ rest) (some b) (lin ++ [q]) fp
          else (some b, lin ++ [q], q)) = _
        rw [if_pos hbs]
      obtain ⟨an', h⟩ := ih hpre' rest (some b) (lin ++ [q]) fp
      refine ⟨an', ?_⟩
      rw [List.cons_append, e1, h]
      simp

theorem seqFailover_all_throw (run : String → RunOutcome) (chain : List String)
    (h : ∀ q ∈ chain, ∃ m, run q = .throws m) :
    ∀ (an : Option DocumentAnalysis) (lin : List String) (fp : String),
      seqFailover run chain an lin fp = (an, lin ++ chain, fp) := by
  induction chain with
  | nil =>
    intro an lin fp
    simp [seqFailover]
  | cons q chain ih =>
    intro an lin fp
    obtain ⟨m, hm⟩ := h q (List.mem_cons_self _ _)
    have e1 : seqFailover run (q :: chain) an lin fp =
        seqFailover run chain an (lin ++ [q]) fp := by
      show (match run q with
        | RunOutcome.throws _ => seqFailover run chain an (lin ++ [q]) fp
        | RunOutcome.returns a =>
          if a.summary = "" then seqFailover run chain (some a) (lin ++ [q]) fp
          else (some a, lin ++ [q], q)) = _
      rw [hm]
    rw [e1, ih (fun r hr => h r (List.mem_cons_of_mem _ hr)) an (lin ++ [q]) fp]
    simp

/-- C3: under sequential failover the enabled providers are tried in priority
order; whenever every provider before `p` in the active chain throws or
returns a summary-less result and `p` returns an analysis with a non-empty
summary, `p` wins: the stored analysis is `p`'s (with `processedBy = p`), the
lineage lists exactly the attempted providers in attempt order (`pre ++ [p]`),
and the document completes (dual-check off). If every enabled provider
throws, the worker ends in the error outcome with the aggregated failure
message. -/
theorem c3_sequential_failover :
    (∀ (run : String → RunOutcome) (cfg : ModelConfig) (pre : List String)
        (p : String) (rest : List String) (a : DocumentAnalysis),
      cfg.dualCheckMode = false →
      activeChain cfg = pre ++ p :: rest →
      (∀ q ∈ pre, (∃ m, run q = .throws m) ∨
        ∃ b, run q = .returns b ∧ b.summary = "") →
      run p = .returns a → a.summary ≠ "" →
      sequentialOutcome run cfg =
        .stored { a with processedBy := p } (pre ++ [p]) .completed) ∧
    (∀ (run : String → RunOutcome) (cfg : ModelConfig),
      activeChain cfg ≠ [] →
      (∀ q ∈ activeChain cfg, ∃ m, run q = .throws m) →
      sequentialOutcome run cfg =
        .errored "All active intelligence providers failed to return analysis.") := by
  constructor
  · intro run cfg pre p rest a hdc hchain hpre hp hsum
    have hseq : seqFailover run (activeChain cfg) none [] "" =
        (some a, pre ++ [p], p) := by
      rw [hchain]
      obtain ⟨an', he⟩ := seqFailover_skip run pre hpre (p :: rest) none [] ""
      rw [he]
      have e1 : seqFailover run (p :: rest) an' ([] ++ pre) "" =
          (some a, ([] ++ pre) ++ [p], p) := by
        show (match run p with
          | RunOutcome.throws _ => seqFailover run rest an' (([] ++ pre) ++ [p]) ""
          | RunOutcome.returns a2 =>
            if a2.summary = "" then
              seqFailover run rest (some a2) (([] ++ pre) ++ [p]) ""
            else (some a2, ([] ++ pre) ++ [p], p)) = _
        rw [hp]
        show (if a.summary = "" then
            seqFailover run rest (some a) (([] ++ pre) ++ [p]) ""
          else (some a, ([] ++ pre) ++ [p], p)) = _
        rw [if_neg hsum]
      rw [e1]
      simp
    have hne : ¬ activeChain cfg = [] := by
      rw [hchain]; simp
    unfold sequentialOutcome
    rw [if_neg hne, hseq]
    show finalizeWorker (some a) (pre ++ [p]) p cfg.dualCheckMode = _
    unfold finalizeWorker
    rw [hdc]
    simp

  · intro run cfg hne hall
    unfold sequentialOutcome
    rw [if_neg hne,
      seqFailover_all_throw run (activeChain cfg) hall none [] ""]
    rfl

/-- C3 witness: with P1 always throwing and P2 succeeding, lineage is
`[P1, P2]`, the stored analysis is P2's, and the outcome is `completed`; with
both providers throwing, the worker errors with the aggregated message. -/
theorem c3_witness :
    sequentialOutcome c3run c3cfg =
      .stored { mkAnalysis "findings" [] [] [] with processedBy := "P2" }
        ["P1", "P2"] .completed ∧
    sequentialOutcome c3runFail c3cfg =
      .errored "All active intelligence providers failed to return analysis." :=
  ⟨c3_sequential_failover.1 c3run c3cfg ["P1"] "P2" []
      (mkAnalysis "findings" [] [] []) rfl (by decide)
      (fun q hq => by
        rcases List.mem_singleton.mp hq with rfl
        exact Or.inl ⟨"P1 offline", by decide⟩)
      (by decide) (by decide),
   c3_sequential_failover.2 c3runFail c3cfg (by decide)
      (fun q _ => ⟨"offline", rfl⟩)⟩

theorem verifAgent_some_status (doc : ProcessedDocument) (bp pt : Bool)
    (cfg : ModelConfig) (oc : RunOutcome) (d' : ProcessedDocument)
    (h : processVerificationAgent (some doc) bp pt cfg oc = some d') :
    d'.status = .completed ∧ d'.id = doc.id := by
  have hb : processVerificationAgentBody doc bp pt cfg oc = some d' := h
  unfold processVerificationAgentBody at hb
  repeat' split at hb
  all_goals first
    | exact Option.noConfusion hb
    | (injection hb with hb; subst hb; exact ⟨rfl, rfl⟩)

/-- C5 (amended): every document entering the verification pass with its
record, content blob and stored analysis available resolves to `completed`,
for every configuration, every provider outcome, and even when the pass
throws; when the record, blob or analysis is missing, the agent's guard
returns early and the document is left untouched (still `verifying`). -/
theorem c5_verification_always_completes :
    (∀ (doc : ProcessedDocument) (a : DocumentAnalysis) (pt : Bool)
        (cfg : ModelConfig) (oc : RunOutcome),
      doc.analysis = some a →
      ∃ d', processVerificationAgent (some doc) true pt cfg oc = some d' ∧
        d'.status = .completed) ∧
    (∀ (doc : ProcessedDocument) (pt : Bool) (cfg : ModelConfig) (oc : RunOutcome),
      processVerificationAgent (some doc) false pt cfg oc = none) ∧
    (∀ (bp pt : Bool) (cfg : ModelConfig) (oc : RunOutcome),
      processVerificationAgent none bp pt cfg oc = none) := by
  refine ⟨?_, ?_, ?_⟩
  · intro doc a pt cfg oc ha
    have hs : (processVerificationAgent (some doc) true pt cfg oc).isSome := by
      show (processVerificationAgentBody doc true pt cfg oc).isSome
      unfold processVerificationAgentBody
      rw [ha]
      repeat' split
      all_goals simp_all
    obtain ⟨d', hd'⟩ := Option.isSome_iff_exists.mp hs
    exact ⟨d', hd', (verifAgent_some_status doc true pt cfg oc d' hd').1⟩
  · intro doc pt cfg oc
    rfl
  · intro bp pt cfg oc
    rfl

/-- C5 counterexample: a document in status `verifying` whose content blob is
absent from the in-memory file store is returned unchanged by the
verification agent (the `if (!doc || !blob || !doc.analysis) return` guard),
so it stays `verifying`; since the blob never reappears, the watcher re-runs
the agent against the same guard forever and the document never reaches
`completed`. -/
theorem c5_counterexample :
    c5doc.status = .verifying ∧
    processVerificationAgent (some c5doc) false false c5cfg
      (.returns (mkAnalysis "sv" [] [] [])) = none :=
  ⟨rfl, rfl⟩

/-- C5 witness: the completion theorem applied to the concrete verifying
document, with the blob present and the verifier call throwing. -/
theorem c5_witness :
    ∃ d', processVerificationAgent (some c5doc) true false c5cfg
        (.throws "boom") = some d' ∧ d'.status = .completed :=
  c5_verification_always_completes.1 c5doc
    (mkAnalysis "sv" [⟨"Duke", "prince", "cv", true⟩] [] []) false c5cfg
    (.throws "boom") rfl

theorem findDoc_map_preserve (docs : List ProcessedDocument)
    (f : ProcessedDocument → ProcessedDocument)
    (hf : ∀ d, (f d).id = d.id) (j : String) :
    findDoc (docs.map f) j = (findDoc docs j).map f := by
  induction docs with
  | nil => rfl
  | cons d t ih =>
    simp only [List.map_cons, findDoc]
    by_cases hdj : d.id = j
    · rw [List.find?_cons_of_pos _ (by simp only [hf, decide_eq_true_eq]; exact hdj),
        List.find?_cons_of_pos _ (by simp only [decide_eq_true_eq]; exact hdj)]
      rfl
    · rw [List.find?_cons_of_neg _
          (by simp only [hf, decide_eq_true_eq, Bool.not_eq_true]
              simpa using hdj),
        List.find?_cons_of_neg _
          (by simp only [decide_eq_true_eq, Bool.not_eq_true]
              simpa using hdj)]
      exact ih

theorem map_id_map_preserve (docs : List ProcessedDocument)
    (f : ProcessedDocument → ProcessedDocument)
    (hf : ∀ d, (f d).id = d.id) :
    (docs.map f).map (fun d => d.id) = docs.map (fun d => d.id) := by
  induction docs with
  | nil => rfl
  | cons d t ih => simp [hf d, ih]

theorem findDoc_setDocStatus (docs : List ProcessedDocument) (id : String)
    (st : Status) (j : String) :
    findDoc (setDocStatus docs id st) j =
      (findDoc docs j).map
        (fun d => if d.id = id then { d with status := st } else d) :=
  findDoc_map_preserve docs _
    (fun d => by by_cases h : d.id = id <;> simp [h]) j

theorem findDoc_replaceDoc (docs : List ProcessedDocument) (id : String)
    (d' : ProcessedDocument) (hd' : d'.id = id) (j : String) :
    findDoc (replaceDoc docs id d') j =
      (findDoc docs j).map (fun d => if d.id = id then d' else d) :=
  findDoc_map_preserve docs _
    (fun d => by by_cases h : d.id = id <;> simp [h, hd']) j

theorem map_id_setDocStatus (docs : List ProcessedDocument) (id : String)
    (st : Status) :
    (setDocStatus docs id st).map (fun d => d.id) = docs.map (fun d => d.id) :=
  map_id_map_preserve docs _ (fun d => by by_cases h : d.id = id <;> simp [h])

theorem map_id_replaceDoc (docs : List ProcessedDocument) (id : String)
    (d' : ProcessedDocument) (hd' : d'.id = id) :
    (replaceDoc docs id d').map (fun d => d.id) = docs.map (fun d => d.id) :=
  map_id_map_preserve docs _ (fun d => by by_cases h : d.id = id <;> simp [h, hd'])

theorem findDoc_append (docs : List ProcessedDocument) (nd : ProcessedDocument)
    (j : String) :
    findDoc (docs ++ [nd]) j =
      (findDoc docs j).or (if nd.id = j then some nd else none) := by
  simp only [findDoc, List.find?_append, List.find?]
  by_cases h : nd.id = j <;> simp [h]

theorem findDoc_eq_none_of_not_mem (docs : List ProcessedDocument) (id : String)
    (h : id ∉ docs.map (fun d => d.id)) : findDoc docs id = none := by
  rw [findDoc, List.find?_eq_none]
  intro d hd
  simp only [decide_eq_true_eq]
  intro he
  exact h (List.mem_map.mpr ⟨d, hd, he⟩)

theorem findDoc_of_mem_nodup (docs : List ProcessedDocument)
    (hnd : (docs.map (fun d => d.id)).Nodup) (d : ProcessedDocument)
    (hd : d ∈ docs) : findDoc docs d.id = some d := by
  induction docs with
  | nil => cases hd
  | cons d0 t ih =>
    simp only [List.map_cons, List.nodup_cons] at hnd
    rcases List.mem_cons.mp hd with rfl | hd
    · rw [findDoc, List.find?_cons_of_pos _ (by simp)]
    · have hne : ¬ (d0.id = d.id) := by
        intro he
        exact hnd.1 (he ▸ List.mem_map.mpr ⟨d, hd, rfl⟩)
      rw [findDoc, List.find?_cons_of_neg _ (by simpa using hne)]
      exact ih hnd.2 hd

theorem mem_updateFirstPoi (key : String) (f : POI → POI) (l : List POI) :
    ∀ q ∈ updateFirstPoi key f l, q ∈ l ∨ ∃ p ∈ l, q = f p := by
  induction l with
  | nil => intro q hq; cases hq
  | cons p ps ih =>
    intro q hq
    unfold updateFirstPoi at hq
    by_cases hp : lowerStr p.name = key
    · rw [if_pos hp] at hq
      rcases List.mem_cons.mp hq with rfl | hq
      · exact Or.inr ⟨p, List.mem_cons_self _ _, rfl⟩
      · exact Or.inl (List.mem_cons_of_mem _ hq)
    · rw [if_neg hp] at hq
      rcases List.mem_cons.mp hq with rfl | hq
      · exact Or.inl (List.mem_cons_self _ _)
      · rcases ih q hq with h | ⟨p', hp', h⟩
        · exact Or.inl (List.mem_cons_of_mem _ h)
        · exact Or.inr ⟨p', List.mem_cons_of_mem _ hp', h⟩

theorem name_map_updateFirstPoi (key : String) (f : POI → POI) (l : List POI)
    (hf : ∀ p, (f p).name = p.name) :
    (updateFirstPoi key f l).map (fun p => lowerStr p.name) =
      l.map (fun p => lowerStr p.name) := by
  induction l with
  | nil => rfl
  | cons p ps ih =>
    unfold updateFirstPoi
    by_cases hp : lowerStr p.name = key
    · rw [if_pos hp]
      simp [hf p]
    · rw [if_neg hp]
      simp [ih]

theorem poisInv_promoteEntity (docId docName : String) (pois : List POI)
    (e : Entity) (h : PoisInv pois) :
    PoisInv (promoteEntity docId docName pois e) := by
  unfold promoteEntity
  by_cases hrel : poiRelevant pois e = true
  · rw [if_pos hrel]
    by_cases hany : pois.any (fun p => lowerStr p.name = lowerStr e.name) = true
    · rw [if_pos hany]
      constructor
      · rw [name_map_updateFirstPoi _ _ _
          (fun p => by by_cases hm : p.mentions.any (fun m => m.docId = docId) = true <;>
            simp [hm])]
        exact h.1
      · intro p hp docId'
        rcases mem_updateFirstPoi _ _ _ p hp with hmem | ⟨p', hp', hfp⟩
        · exact h.2 p hmem docId'
        · by_cases hm : p'.mentions.any (fun m => m.docId = docId) = true
          · rw [if_pos hm] at hfp
            subst hfp
            exact h.2 _ hp' docId'
          · rw [if_neg hm] at hfp
            subst hfp
            simp only [List.countP_append]
            by_cases hdd : docId = docId'
            · subst hdd
              have hall : ∀ m ∈ p'.mentions, ¬ m.docId = docId := by
                simpa using hm
              have h0 : p'.mentions.countP (fun m => m.docId = docId) = 0 := by
                rw [List.countP_eq_zero]
                intro m hmm
                simpa using hall m hmm
              rw [h0]
              simp [mentionOf, List.countP_cons]
            · have h1 : ([mentionOf docId docName e].countP
                  (fun m => m.docId = docId')) = 0 := by
                simp [mentionOf, List.countP_cons, hdd]
              rw [h1]
              simpa using h.2 p' hp' docId'
    · rw [if_neg hany]
      constructor
      · rw [List.map_append]
        have hnotin : lowerStr e.name ∉ pois.map (fun p => lowerStr p.name) := by
          intro hin
          obtain ⟨p, hp, hpe⟩ := List.mem_map.mp hin
          exact hany (List.any_eq_true.mpr ⟨p, hp, by simp [hpe]⟩)
        simp only [List.map_cons, List.map_nil]
        rw [← List.concat_eq_append]
        exact h.1.concat hnotin
      · intro p hp docId'
        rcases List.mem_append.mp hp with hmem | hnew
        · exact h.2 p hmem docId'
        · simp only [List.mem_singleton] at hnew
          subst hnew
          simp only [List.countP_cons, List.countP_nil]
          split <;> simp
  · rw [if_neg hrel]
    exact h

theorem poisInv_updatePois (docId docName : String) (pois : List POI)
    (es : List Entity) (h : PoisInv pois) :
    PoisInv (updatePois docId docName pois es) := by
  unfold updatePois
  induction es generalizing pois with
  | nil => simpa using h
  | cons e es ih =>
    simp only [List.foldl_cons]
    exact ih _ (poisInv_promoteEntity _ _ _ _ h)

theorem primaryAgentEntry_missing (s : SysState) (id : String)
    (h : findDoc s.docs id = none ∨ s.blobs.contains id = false) :
    primaryAgentEntry s id =
      ({ s with queue := s.queue.filter (fun x => x ≠ id) }, false) := by
  rcases h with h | h
  · simp [primaryAgentEntry, h, List.erase_cons_head]
  · have h' : id ∉ s.blobs := by simpa using h
    cases hfd : findDoc s.docs id with
    | none => simp [primaryAgentEntry, hfd, List.erase_cons_head]
    | some d => simp [primaryAgentEntry, hfd, h', List.erase_cons_head]

theorem primaryAgentEntry_proceed (s : SysState) (id : String)
    (h1 : (findDoc s.docs id).isSome) (h2 : s.blobs.contains id = true) :
    primaryAgentEntry s id =
      ({ s with
          queue := s.queue.filter (fun x => x ≠ id),
          docs := setDocStatus s.docs id .processing,
          workers := id :: s.workers }, true) := by
  rcases Option.isSome_iff_exists.mp h1 with ⟨d, hd⟩
  have h2' : id ∈ s.blobs := by simpa using h2
  simp [primaryAgentEntry, hd, h2']

theorem schedInv_step (s s' : SysState) (hstep : SysStep s s')
    (hinv : SchedInv s) : SchedInv s' := by
  obtain ⟨hids, hqnd, hwnd, hdisj, hqst, hwst, hpinv⟩ := hinv
  cases hstep with
  | upload id name hid hq hwg =>
    refine ⟨?_, ?_, hwnd, ?_, ?_, ?_, hpinv⟩
    · show ((s.docs ++ [(⟨id, name, .pending, none, []⟩ : ProcessedDocument)]).map
        (fun d => d.id)).Nodup
      have he : (s.docs ++ [(⟨id, name, .pending, none, []⟩ : ProcessedDocument)]).map
          (fun d => d.id) = s.docs.map (fun d => d.id) ++ [id] := by simp
      rw [he, ← List.concat_eq_append]
      exact hids.concat hid
    · show (s.queue ++ [id]).Nodup
      rw [← List.concat_eq_append]
      exact hqnd.concat hq
    · intro w hw
      simp only [List.mem_append, List.mem_singleton]
      rintro (h | rfl)
      · exact hdisj w hw h
      · exact hwg hw
    · intro j hj d hd
      rw [findDoc_append] at hd
      rcases List.mem_append.mp hj with hj | hj
      · cases hold : findDoc s.docs j with
        | some d0 =>
          rw [hold] at hd
          simp only [Option.or_some] at hd
          injection hd with hd
          subst hd
          exact hqst j hj d0 hold
        | none =>
          rw [hold] at hd
          simp only [Option.none_or] at hd
          by_cases hji : id = j
          · exact absurd (hji ▸ hj) hq
          · rw [if_neg (by simpa using hji)] at hd
            cases hd
      · simp only [List.mem_singleton] at hj
        subst hj
        have hold : findDoc s.docs j = none :=
          findDoc_eq_none_of_not_mem s.docs j hid
      -- wait: hj was `j = id` then subst makes id := j; guard names adapt
        rw [hold] at hd
        simp only [Option.none_or] at hd
        rw [if_pos trivial] at hd
        injection hd with hd
        subst hd
        exact Or.inl rfl
    · intro w hw d hd
      rw [findDoc_append] at hd
      cases hold : findDoc s.docs w with
      | some d0 =>
        rw [hold] at hd
        simp only [Option.or_some] at hd
        injection hd with hd
        subst hd
        exact hwst w hw d0 hold
      | none =>
        rw [hold] at hd
        simp only [Option.none_or] at hd
        by_cases hwi : id = w
        · exact absurd (hwi ▸ hw) hwg
        · rw [if_neg (by simpa using hwi)] at hd
          cases hd
  | restart =>
    refine ⟨hids, nodup_dedupFirst _, hwnd, ?_, ?_, hwst, hpinv⟩
    · intro w hw hc
      rw [mem_dedupFirst, List.mem_append] at hc
      rcases hc with hc | hc
      · exact hdisj w hw hc
      · obtain ⟨d0, hd0, hid0⟩ := List.mem_map.mp hc
        have hd0f := List.mem_filter.mp hd0
        have hfind : findDoc s.docs w = some d0 :=
          hid0 ▸ findDoc_of_mem_nodup s.docs hids d0 hd0f.1
        have hproc := hwst w hw d0 hfind
        have := hd0f.2
        rw [hproc] at this
        simp at this
    · intro j hj d hd
      rw [mem_dedupFirst, List.mem_append] at hj
      rcases hj with hj | hj
      · exact hqst j hj d hd
      · obtain ⟨d0, hd0, hid0⟩ := List.mem_map.mp hj
        have hd0f := List.mem_filter.mp hd0
        have hfind : findDoc s.docs j = some d0 :=
          hid0 ▸ findDoc_of_mem_nodup s.docs hids d0 hd0f.1
        rw [hfind] at hd
        injection hd with hd
        subst hd
        have := hd0f.2
        simp only [Bool.or_eq_true, decide_eq_true_eq] at this
        rcases this with h | h
        · exact Or.inr h
        · exact Or.inl h
  | dispatch id hhead hcap =>
    have hidq : id ∈ s.queue := by
      exact List.mem_of_mem_head? (by rw [Option.mem_def, hhead])
    by_cases hmiss : findDoc s.docs id = none ∨ s.blobs.contains id = false
    · rw [primaryAgentEntry_missing s id hmiss]
      refine ⟨hids, hqnd.filter _, hwnd, ?_, ?_, hwst, hpinv⟩
      · intro w hw hc
        exact hdisj w hw (List.mem_of_mem_filter hc)
      · intro j hj d hd
        exact hqst j (List.mem_of_mem_filter hj) d hd
    · push_neg at hmiss
      obtain ⟨hfdn, hbl⟩ := hmiss
      have h1 : (findDoc s.docs id).isSome := by
        cases hfd : findDoc s.docs id with
        | none => exact absurd hfd hfdn
        | some d => simp
      have h2 : s.blobs.contains id = true := by
        cases hb : s.blobs.contains id with
        | false => exact absurd hb hbl
        | true => rfl
      rw [primaryAgentEntry_proceed s id h1 h2]
      have hidnw : id ∉ s.workers := fun hmem => hdisj id hmem hidq
      refine ⟨?_, hqnd.filter _, ?_, ?_, ?_, ?_, hpinv⟩
      · rw [map_id_setDocStatus]
        exact hids
      · exact List.nodup_cons.mpr ⟨hidnw, hwnd⟩
      · intro w hw hc
        rcases List.mem_cons.mp hw with rfl | hw
        · have := List.mem_filter.mp hc
          simp at this
        · exact hdisj w hw (List.mem_of_mem_filter hc)
      · intro j hj d hd
        have hjq := List.mem_of_mem_filter hj
        have hjne : ¬ (j = id) := by
          have := (List.mem_filter.mp hj).2
          simpa using this
        rw [findDoc_setDocStatus] at hd
        cases hold : findDoc s.docs j with
        | none => rw [hold] at hd; cases hd
        | some d0 =>
          rw [hold] at hd
          have hd0id : d0.id = j := by simpa using List.find?_some hold
          simp only [Option.map_some'] at hd
          rw [if_neg (by rw [hd0id]; exact hjne)] at hd
          injection hd with hd
          subst hd
          exact hqst j hjq d0 hold
      · intro w hw d hd
        rw [findDoc_setDocStatus] at hd
        rcases List.mem_cons.mp hw with rfl | hw
        · cases hold : findDoc s.docs w with
          | none => rw [hold] at hd; cases hd
          | some d0 =>
            rw [hold] at hd
            have hd0id : d0.id = w := by simpa using List.find?_some hold
            simp only [Option.map_some'] at hd
            rw [if_pos hd0id] at hd
            injection hd with hd
            subst hd
            rfl
        · have hwne : ¬ (w = id) := fun he => hidnw (he ▸ hw)
          cases hold : findDoc s.docs w with
          | none => rw [hold] at hd; cases hd
          | some d0 =>
            rw [hold] at hd
            have hd0id : d0.id = w := by simpa using List.find?_some hold
            simp only [Option.map_some'] at hd
            rw [if_neg (by rw [hd0id]; exact hwne)] at hd
            injection hd with hd
            subst hd
            exact hwst w hw d0 hold
  | workerEnd id d a st lin hw hfd hst =>
    have hdid : d.id = id := by simpa using List.find?_some hfd
    have hndid : ({ d with
        status := st, analysis := some a, lineage := lin } :
        ProcessedDocument).id = id := hdid
    refine ⟨?_, hqnd, hwnd.erase _, ?_, ?_, ?_,
      poisInv_updatePois _ _ _ _ hpinv⟩
    · rw [map_id_replaceDoc s.docs id _ hndid]
      exact hids
    · intro w hwm
      exact hdisj w (List.mem_of_mem_erase hwm)
    · intro j hj d2 hd2
      have hjne : ¬ (j = id) := fun he => hdisj id hw (he ▸ hj)
      rw [findDoc_replaceDoc s.docs id _ hndid] at hd2
      cases hold : findDoc s.docs j with
      | none => rw [hold] at hd2; cases hd2
      | some d0 =>
        rw [hold] at hd2
        have hd0id : d0.id = j := by simpa using List.find?_some hold
        simp only [Option.map_some'] at hd2
        rw [if_neg (by rw [hd0id]; exact hjne)] at hd2
        injection hd2 with hd2
        subst hd2
        exact hqst j hj d0 hold
    · intro w hwm d2 hd2
      have hwne : ¬ (w = id) := ((hwnd.mem_erase_iff).mp hwm).1
      rw [findDoc_replaceDoc s.docs id _ hndid] at hd2
      cases hold : findDoc s.docs w with
      | none => rw [hold] at hd2; cases hd2
      | some d0 =>
        rw [hold] at hd2
        have hd0id : d0.id = w := by simpa using List.find?_some hold
        simp only [Option.map_some'] at hd2
        rw [if_neg (by rw [hd0id]; exact hwne)] at hd2
        injection hd2 with hd2
        subst hd2
        exact hwst w (List.mem_of_mem_erase hwm) d0 hold
  | workerEndLost id docName a hw hfd =>
    refine ⟨hids, hqnd, hwnd.erase _, ?_, hqst, ?_,
      poisInv_updatePois _ _ _ _ hpinv⟩
    · intro w hwm
      exact hdisj w (List.mem_of_mem_erase hwm)
    · intro w hwm d2 hd2
      exact hwst w (List.mem_of_mem_erase hwm) d2 hd2
  | workerErr id hw =>
    refine ⟨?_, hqnd, hwnd.erase _, ?_, ?_, ?_, hpinv⟩
    · rw [map_id_setDocStatus]
      exact hids
    · intro w hwm
      exact hdisj w (List.mem_of_mem_erase hwm)
    · intro j hj d2 hd2
      have hjne : ¬ (j = id) := fun he => hdisj id hw (he ▸ hj)
      rw [findDoc_setDocStatus] at hd2
      cases hold : findDoc s.docs j with
      | none => rw [hold] at hd2; cases hd2
      | some d0 =>
        rw [hold] at hd2
        have hd0id : d0.id = j := by simpa using List.find?_some hold
        simp only [Option.map_some'] at hd2
        rw [if_neg (by rw [hd0id]; exact hjne)] at hd2
        injection hd2 with hd2
        subst hd2
        exact hqst j hj d0 hold
    · intro w hwm d2 hd2
      have hwne : ¬ (w = id) := ((hwnd.mem_erase_iff).mp hwm).1
      rw [findDoc_setDocStatus] at hd2
      cases hold : findDoc s.docs w with
      | none => rw [hold] at hd2; cases hd2
      | some d0 =>
        rw [hold] at hd2
        have hd0id : d0.id = w := by simpa using List.find?_some hold
        simp only [Option.map_some'] at hd2
        rw [if_neg (by rw [hd0id]; exact hwne)] at hd2
        injection hd2 with hd2
        subst hd2
        exact hwst w (List.mem_of_mem_erase hwm) d0 hold
  | verifEnd id pt cfg oc d d' hfd hvs hagent =>
    have hdid : d.id = id := by simpa using List.find?_some hfd
    have hd' := verifAgent_some_status d _ pt cfg oc d' hagent
    have hd'id : d'.id = id := hd'.2.trans hdid
    refine ⟨?_, hqnd, hwnd, hdisj, ?_, ?_, hpinv⟩
    · rw [map_id_replaceDoc s.docs id d' hd'id]
      exact hids
    · intro j hj d2 hd2
      have hjne : ¬ (j = id) := by
        intro he
        subst he
        rcases hqst j hj d hfd with h | h <;> rw [hvs] at h <;> cases h
      rw [findDoc_replaceDoc s.docs id d' hd'id] at hd2
      cases hold : findDoc s.docs j with
      | none => rw [hold] at hd2; cases hd2
      | some d0 =>
        rw [hold] at hd2
        have hd0id : d0.id = j := by simpa using List.find?_some hold
        simp only [Option.map_some'] at hd2
        rw [if_neg (by rw [hd0id]; exact hjne)] at hd2
        injection hd2 with hd2
        subst hd2
        exact hqst j hj d0 hold
    · intro w hwm d2 hd2
      have hwne : ¬ (w = id) := by
        intro he
        subst he
        have := hwst w hwm d hfd
        rw [hvs] at this
        cases this
      rw [findDoc_replaceDoc s.docs id d' hd'id] at hd2
      cases hold : findDoc s.docs w with
      | none => rw [hold] at hd2; cases hd2
      | some d0 =>
        rw [hold] at hd2
        have hd0id : d0.id = w := by simpa using List.find?_some hold
        simp only [Option.map_some'] at hd2
        rw [if_neg (by rw [hd0id]; exact hwne)] at hd2
        injection hd2 with hd2
        subst hd2
        exact hwst w hwm d0 hold
  | reset =>
    refine ⟨by simp, List.nodup_nil, hwnd, ?_, ?_, ?_, ?_⟩
    · intro w _ hc
      cases hc
    · intro j hj
      cases hj
    · intro w _ d hd
      cases hd
    · exact ⟨List.nodup_nil, fun p hp => absurd hp (List.not_mem_nil p)⟩

theorem reach_schedInv (s : SysState) (h : Reach s) : SchedInv s := by
  induction h with
  | init docs pois blobs hst hnd hpi =>
    refine ⟨hnd, List.nodup_nil, List.nodup_nil, ?_, ?_, ?_, hpi⟩
    · intro w hw
      cases hw
    · intro j hj
      cases hj
    · intro w hw
      cases hw
  | step s s' _ hstep ih =>
    exact schedInv_step s s' hstep ih

theorem reach_sysStart : Reach sysStart :=
  Reach.init [] [] [] (fun d hd => absurd hd (List.not_mem_nil d)) List.nodup_nil
    ⟨List.nodup_nil, fun p hp => absurd hp (List.not_mem_nil p)⟩

theorem reach_sUp : Reach sUp :=
  Reach.step _ _ reach_sysStart
    (SysStep.upload sysStart "d1" "a.pdf" (by simp [sysStart])
      (by simp [sysStart]) (by simp [sysStart]))

theorem reach_sDisp : Reach sDisp := by
  have h := Reach.step _ _ reach_sUp (SysStep.dispatch sUp "d1" (by decide) (by decide))
  have he : (primaryAgentEntry sUp "d1").1 = sDisp := by decide
  rw [he] at h
  exact h

theorem reach_sDone : Reach sDone :=
  Reach.step _ _ reach_sDisp
    (SysStep.workerEnd sDisp "d1" dProc c7ana .completed ["gemini"]
      (by decide) (by decide) (Or.inl rfl))

theorem reach_sErr : Reach sErr :=
  Reach.step _ _ reach_sDisp (SysStep.workerErr sDisp "d1" (by decide))

theorem reach_sRe : Reach sRe :=
  Reach.step _ _ reach_sErr (SysStep.restart sErr)

/-- C4: in every reachable state of the scheduler model, each document id
appears at most once in the in-flight worker pool — the same id never
contributes twice to the active-worker count — and the synchronous entry of
`processDocumentAgent` removes the dispatched id from the queue, so the id is
no longer queued the moment its worker exists. -/
theorem c4_at_most_one_worker (s : SysState) (h : Reach s) :
    (∀ id, s.workers.count id ≤ 1) ∧
    (∀ id, id ∉ ((primaryAgentEntry s id).1).queue) := by
  constructor
  · intro id
    exact List.nodup_iff_count_le_one.mp (reach_schedInv s h).2.2.1 id
  · intro id hmem
    have hq : ((primaryAgentEntry s id).1).queue =
        s.queue.filter (fun x => x ≠ id) := by
      cases hfd : findDoc s.docs id with
      | none => simp [primaryAgentEntry, hfd]
      | some d =>
        by_cases hb : s.blobs.contains id = true
        · have hb' : id ∈ s.blobs := by simpa using hb
          simp [primaryAgentEntry, hfd, hb']
        · have hb' : id ∉ s.blobs := by simpa using hb
          simp [primaryAgentEntry, hfd, hb']
    rw [hq] at hmem
    have := List.mem_filter.mp hmem
    simp at this

/-- C4 witness: the reachable state with the single in-flight worker for
`d1`, produced by uploading and dispatching it. -/
theorem c4_witness : sDisp.workers.count "d1" ≤ 1 :=
  (c4_at_most_one_worker sDisp reach_sDisp).1 "d1"

/-- C7: in every reachable state, tracked subjects are unique per
case-insensitive name and every subject carries at most one mention per
source document id, so re-processing a document never duplicates a mention. -/
theorem c7_poi_idempotent (s : SysState) (h : Reach s) :
    ((s.pois.map (fun p => lowerStr p.name)).Nodup) ∧
    ∀ p ∈ s.pois, ∀ docId, p.mentions.countP (fun m => m.docId = docId) ≤ 1 :=
  (reach_schedInv s h).2.2.2.2.2.2

/-- C7 witness: the subject list of the state in which `d1`'s worker promoted
Jane Doe satisfies the uniqueness invariant. -/
theorem c7_witness : (sDone.pois.map (fun p => lowerStr p.name)).Nodup :=
  (c7_poi_idempotent sDone reach_sDone).1

/-- C10: when a dispatched id has no document record or no blob in the file
store, the worker entry removes the id from the queue and returns early:
documents (hence statuses, analyses and lineages), tracked subjects, blobs
and the worker pool are all left unchanged — in particular no error status is
set and nothing is persisted — and the net active-worker count is unchanged. -/
theorem c10_missing_doc_frame (s : SysState) (id : String)
    (h : findDoc s.docs id = none ∨ s.blobs.contains id = false) :
    (primaryAgentEntry s id).1.docs = s.docs ∧
    (primaryAgentEntry s id).1.pois = s.pois ∧
    (primaryAgentEntry s id).1.workers = s.workers ∧
    (primaryAgentEntry s id).1.blobs = s.blobs ∧
    (primaryAgentEntry s id).1.queue = s.queue.filter (fun x => x ≠ id) ∧
    (primaryAgentEntry s id).2 = false := by
  rw [primaryAgentEntry_missing s id h]
  exact ⟨rfl, rfl, rfl, rfl, rfl, rfl⟩

/-- C10 witness: the frame theorem applied to a state whose queue holds an id
with neither record nor blob. -/
theorem c10_witness :
    (primaryAgentEntry c10s "dx").1.docs = c10s.docs ∧
    (primaryAgentEntry c10s "dx").1.pois = c10s.pois ∧
    (primaryAgentEntry c10s "dx").1.workers = c10s.workers ∧
    (primaryAgentEntry c10s "dx").1.blobs = c10s.blobs ∧
    (primaryAgentEntry c10s "dx").1.queue =
      c10s.queue.filter (fun x => x ≠ "dx") ∧
    (primaryAgentEntry c10s "dx").2 = false :=
  c10_missing_doc_frame c10s "dx" (Or.inl rfl)

/-- C6 counterexample: the retry path realises the edge error→processing,
which the specification's transition list does not contain. From the empty
session, upload `d1`, dispatch it, let its worker fail (status `error`), hit
retry (`restartAnalysis` re-enqueues it), and dispatch again: the step maps
`d1` from `error` straight to `processing`. -/
theorem c6_counterexample :
    Reach sRe ∧
    SysStep sRe (primaryAgentEntry sRe "d1").1 ∧
    (findDoc sRe.docs "d1").map (fun d => d.status) = some .error ∧
    (findDoc ((primaryAgentEntry sRe "d1").1).docs "d1").map
      (fun d => d.status) = some .processing ∧
    (Status.error, Status.processing) ∉ specStatusEdges :=
  ⟨reach_sRe, SysStep.dispatch sRe "d1" (by decide) (by decide),
    by decide, by decide, by decide⟩

/-- C6 (amended): along every step from a reachable state, a document's
status either stays unchanged or moves along one of the edges
pending→processing, processing→verifying, processing→completed,
processing→error, verifying→completed, or the retry edge error→processing;
no other transition is reachable. -/
theorem c6_status_edges (s s' : SysState) (hr : Reach s) (hstep : SysStep s s')
    (id : String) (d d' : ProcessedDocument)
    (hd : findDoc s.docs id = some d) (hd' : findDoc s'.docs id = some d')
    (hne : d.status ≠ d'.status) :
    (d.status, d'.status) ∈ codeStatusEdges := by
  obtain ⟨hids, hqnd, hwnd, hdisj, hqst, hwst, hpinv⟩ := reach_schedInv s hr
  cases hstep with
  | upload id2 name hid hq hwg =>
    have h2 : findDoc (s.docs ++ [⟨id2, name, .pending, none, []⟩]) id =
        some d' := hd'
    rw [findDoc_append, hd] at h2
    have h2' : some d = some d' := h2
    injection h2' with h2
    exact absurd (by rw [h2]) hne
  | restart =>
    have h2 : findDoc s.docs id = some d' := hd'
    rw [hd] at h2
    injection h2 with h2
    exact absurd (by rw [h2]) hne
  | dispatch id2 hhead hcap =>
    by_cases hmiss : findDoc s.docs id2 = none ∨ s.blobs.contains id2 = false
    · have h2 : findDoc s.docs id = some d' := by
        have h3 := hd'
        rw [primaryAgentEntry_missing s id2 hmiss] at h3
        exact h3
      rw [hd] at h2
      injection h2 with h2
      exact absurd (by rw [h2]) hne
    · push_neg at hmiss
      obtain ⟨h1n, h2n⟩ := hmiss
      have h1 : (findDoc s.docs id2).isSome := by
        cases hfd2 : findDoc s.docs id2 with
        | none => exact absurd hfd2 h1n
        | some _ => simp
      have h2b : s.blobs.contains id2 = true := by
        cases hb : s.blobs.contains id2 with
        | false => exact absurd hb h2n
        | true => rfl
      have h2 : findDoc (setDocStatus s.docs id2 .processing) id = some d' := by
        have h3 := hd'
        rw [primaryAgentEntry_proceed s id2 h1 h2b] at h3
        exact h3
      rw [findDoc_setDocStatus, hd] at h2
      simp only [Option.map_some'] at h2
      injection h2 with h2
      by_cases hii : d.id = id2
      · rw [if_pos hii] at h2
        subst h2
        have hdid : d.id = id := by simpa using List.find?_some hd
        have hee : id = id2 := hdid.symm.trans hii
        have hidq2 : id2 ∈ s.queue :=
          List.mem_of_mem_head? (by rw [Option.mem_def, hhead])
        have hidq : id ∈ s.queue := by
          rw [hee]
          exact hidq2
        rcases hqst id hidq d hd with h | h
        · rw [h]
          show (Status.pending, Status.processing) ∈ codeStatusEdges
          decide
        · rw [h]
          show (Status.error, Status.processing) ∈ codeStatusEdges
          decide
      · rw [if_neg hii] at h2
        subst h2
        exact absurd rfl hne
  | workerEnd id2 d2 a st lin hw hfd hst =>
    have hd2id : d2.id = id2 := by simpa using List.find?_some hfd
    have hnid : ({ d2 with
        status := st, analysis := some a, lineage := lin } :
        ProcessedDocument).id = id2 := hd2id
    have h2 : findDoc (replaceDoc s.docs id2
        { d2 with status := st, analysis := some a, lineage := lin }) id =
        some d' := hd'
    rw [findDoc_replaceDoc s.docs id2 _ hnid, hd] at h2
    simp only [Option.map_some'] at h2
    injection h2 with h2
    by_cases hii : d.id = id2
    · rw [if_pos hii] at h2
      subst h2
      have hdid : d.id = id := by simpa using List.find?_some hd
      have hee : id = id2 := hdid.symm.trans hii
      rw [hee] at hd
      have hdd2 : d = d2 := by
        rw [hd] at hfd
        exact Option.some.inj hfd
      have hproc : d.status = .processing := by
        rw [hdd2]
        exact hwst id2 hw d2 hfd
      rw [hproc]
      rcases hst with rfl | rfl
      · show (Status.processing, Status.completed) ∈ codeStatusEdges
        decide
      · show (Status.processing, Status.verifying) ∈ codeStatusEdges
        decide
    · rw [if_neg hii] at h2
      subst h2
      exact absurd rfl hne
  | workerEndLost id2 docName a hw hfd =>
    have h2 : findDoc s.docs id = some d' := hd'
    rw [hd] at h2
    injection h2 with h2
    exact absurd (by rw [h2]) hne
  | workerErr id2 hw =>
    have h2 : findDoc (setDocStatus s.docs id2 .error) id = some d' := hd'
    rw [findDoc_setDocStatus, hd] at h2
    simp only [Option.map_some'] at h2
    injection h2 with h2
    by_cases hii : d.id = id2
    · rw [if_pos hii] at h2
      subst h2
      have hdid : d.id = id := by simpa using List.find?_some hd
      have hee : id = id2 := hdid.symm.trans hii
      have hproc : d.status = .processing := by
        rw [hee] at hd
        exact hwst id2 hw d hd
      rw [hproc]
      show (Status.processing, Status.error) ∈ codeStatusEdges
      decide
    · rw [if_neg hii] at h2
      subst h2
      exact absurd rfl hne
  | verifEnd id2 pt cfg oc d2 d2' hfd hvs hagent =>
    have hstat := verifAgent_some_status d2 _ pt cfg oc d2' hagent
    have hd2id : d2.id = id2 := by simpa using List.find?_some hfd
    have hd2'id : d2'.id = id2 := hstat.2.trans hd2id
    have h2 : findDoc (replaceDoc s.docs id2 d2') id = some d' := hd'
    rw [findDoc_replaceDoc s.docs id2 d2' hd2'id, hd] at h2
    simp only [Option.map_some'] at h2
    injection h2 with h2
    by_cases hii : d.id = id2
    · rw [if_pos hii] at h2
      subst h2
      have hdid : d.id = id := by simpa using List.find?_some hd
      have hee : id = id2 := hdid.symm.trans hii
      rw [hee] at hd
      have hdd2 : d = d2 := by
        rw [hd] at hfd
        exact Option.some.inj hfd
      rw [hdd2, hvs, hstat.1]
      decide
    · rw [if_neg hii] at h2
      subst h2
      exact absurd rfl hne
  | reset =>
    have h2 : findDoc ([] : List ProcessedDocument) id = some d' := hd'
    cases h2

/-- C6 witness: the amended edge relation applied to the concrete retry
dispatch, realising error→processing. -/
theorem c6_witness : (Status.error, Status.processing) ∈ codeStatusEdges :=
  c6_status_edges sRe (primaryAgentEntry sRe "d1").1 reach_sRe
    (SysStep.dispatch sRe "d1" (by decide) (by decide)) "d1"
    ⟨"d1", "a.pdf", .error, none, []⟩ ⟨"d1", "a.pdf", .processing, none, []⟩
    (by decide) (by decide) (by decide)

end Nexus
